import Mathlib

/-!
Verification development for the darktable MCP file-mailbox bridge
(`dt_mcp_bridge.lua`, multi-request variant, and the legacy single-slot
`tools/mcp-server/dt_mcp_bridge.lua`).

The Lua source is shallowly embedded:

* Lua values that can flow through the embedded json.lua codec are modelled
  by `JValue` / `JPairs`.  Lua has a single table type; `JValue.table` carries
  an association list of key/value pairs (Lua tables cannot hold duplicate
  keys or `nil` values, and the table assignments performed by the decoder are
  modelled faithfully by `setTab`).  Lua `pairs` iteration order is
  unspecified; the model fixes it to the list order.
* Lua numbers are modelled as integers (`Int`).  Floating point values are
  outside the embedding: where the source converts a float-shaped numeral,
  the model keeps its integer part.  No theorem below inspects such a value.
* Lua errors raised by `error(...)` / builtin argument errors are modelled by
  `Except` with structured error values carrying the exact information the
  Lua messages carry (in particular: a byte position only where the Lua
  message interpolates one).
-/

namespace DtMcp

/-- Decidable equality for `Except`, so concrete runs of the embedded code
can be checked by `decide`. -/
instance instDecEqExcept {e a : Type} [DecidableEq e] [DecidableEq a] :
    DecidableEq (Except e a) := fun x y =>
  match x, y with
  | .ok v, .ok w =>
    if h : v = w then .isTrue (by rw [h]) else .isFalse (by intro hc; cases hc; exact h rfl)
  | .error v, .error w =>
    if h : v = w then .isTrue (by rw [h]) else .isFalse (by intro hc; cases hc; exact h rfl)
  | .ok _, .error _ => .isFalse (by intro hc; cases hc)
  | .error _, .ok _ => .isFalse (by intro hc; cases hc)

mutual
/-- A Lua value representable by the bridge codec: `nil`, booleans, numbers,
strings, and tables (association lists of key/value pairs). -/
inductive JValue where
  | null : JValue
  | bool (b : Bool) : JValue
  | num (n : Int) : JValue
  | str (s : List Char) : JValue
  | table (kvs : JPairs) : JValue
  deriving DecidableEq
/-- The entries of a Lua table, in (modelled) `pairs` iteration order. -/
inductive JPairs where
  | nil : JPairs
  | cons (k v : JValue) (rest : JPairs) : JPairs
  deriving DecidableEq
end

/-- Lua raw table read `t[k]`: the value at the first entry whose key equals
`k`, if any. -/
def lookupTab (k : JValue) : JPairs → Option JValue
  | .nil => none
  | .cons k1 v r => if k1 = k then some v else lookupTab k r

/-- Lua table write `t[k] = v`: replaces the entry for `k` (removing it when
`v` is `nil`, modelled as `none`), appending a new entry otherwise. -/
def setTab (k : JValue) (v : Option JValue) : JPairs → JPairs
  | .nil =>
    match v with
    | some v1 => .cons k v1 .nil
    | none => .nil
  | .cons k1 v1 r =>
    if k1 = k then
      match v with
      | some v2 => .cons k1 v2 r
      | none => r
    else .cons k1 v1 (setTab k v r)

/-- Number of entries of a table (the number of `pairs` iterations). -/
def plen : JPairs → Nat
  | .nil => 0
  | .cons _ _ r => 1 + plen r

mutual
/-- Structural weight of a value, used as a termination measure for the
encoder (which walks tables through `lookupTab`, not structurally). -/
def jweight : JValue → Nat
  | .table kvs => 1 + plen kvs + pweight kvs
  | _ => 1
/-- Sum of the weights of all keys and values of a table. -/
def pweight : JPairs → Nat
  | .nil => 0
  | .cons k v r => jweight k + jweight v + pweight r
end

theorem jweight_pos (e : JValue) : 1 ≤ jweight e := by
  cases e <;> simp [jweight] <;> omega

theorem lookupTab_weight (k : JValue) (kvs : JPairs) (v : JValue)
    (h : lookupTab k kvs = some v) : jweight v ≤ pweight kvs :=
  match kvs with
  | .nil => by simp [lookupTab] at h
  | .cons k1 v1 r => by
    simp only [lookupTab] at h
    by_cases hk : k1 = k
    · simp [hk] at h
      subst h
      simp [pweight]
      omega
    · simp [hk] at h
      have := lookupTab_weight k r v h
      simp [pweight]
      omega

/-! ## Decimal numerals

The source interpolates numbers into strings with Lua `tostring`
(`os.time()`, `image.id`, `tostring(obj)` in the encoder).  The model renders
integers in decimal with `decRepr` / `intRepr`. -/

/-- The ASCII digit for `n < 10`. -/
def digitChar (n : Nat) : Char := Char.ofNat (48 + n)

/-- Decimal digits, most significant first; structural on a fuel bound so
that concrete runs reduce in the kernel (`decRepr` below supplies a
sufficient bound). -/
def decReprAux (fuel : Nat) (n : Nat) : List Char :=
  match fuel with
  | 0 => []
  | fuel + 1 =>
    if n < 10 then [digitChar n]
    else decReprAux fuel (n / 10) ++ [digitChar (n % 10)]

/-- Decimal digits of a natural number, most significant first. -/
def decRepr (n : Nat) : List Char := decReprAux (n + 1) n

/-- Lua `tostring` of an integer number. -/
def intRepr (i : Int) : List Char :=
  if i < 0 then '-' :: decRepr i.natAbs else decRepr i.natAbs

/-- Numeric value of a list of decimal digits (most significant first). -/
def digitsVal (ds : List Char) : Nat :=
  ds.foldl (fun a c => 10 * a + (c.toNat - 48)) 0

theorem digitsVal_append (a b : List Char) :
    digitsVal (a ++ b) = b.foldl (fun a c => 10 * a + (c.toNat - 48)) (digitsVal a) := by
  simp [digitsVal, List.foldl_append]

theorem digitChar_toNat (n : Nat) (h : n < 10) : (digitChar n).toNat = 48 + n := by
  interval_cases n <;> decide

theorem digitsVal_decReprAux (fuel n : Nat) (h : n < fuel) :
    digitsVal (decReprAux fuel n) = n := by
  induction fuel generalizing n with
  | zero => omega
  | succ fuel ih =>
    rw [decReprAux]
    by_cases h10 : n < 10
    · simp [h10, digitsVal, digitChar_toNat n h10]
    · have hdiv : n / 10 < fuel := by
        have : n / 10 < n := Nat.div_lt_self (by omega) (by omega)
        omega
      simp only [h10, if_false]
      rw [digitsVal_append, ih (n / 10) hdiv]
      simp [List.foldl_cons, digitChar_toNat (n % 10) (Nat.mod_lt _ (by omega))]
      omega

theorem digitsVal_decRepr (n : Nat) : digitsVal (decRepr n) = n :=
  digitsVal_decReprAux (n + 1) n (by omega)

theorem decRepr_injective (m n : Nat) (h : decRepr m = decRepr n) : m = n := by
  have hm := digitsVal_decRepr m
  have hn := digitsVal_decRepr n
  rw [h] at hm
  omega

/-! ## `escape_str`

```lua
local function escape_str(s)
  local in_char  = {'\\', '"', '/', '\b', '\f', '\n', '\r', '\t'}
  local out_char = {'\\', '"', '/',  'b',  'f',  'n',  'r',  't'}
  for i, c in ipairs(in_char) do
    s = s:gsub(c, '\\' .. out_char[i])
  end
  return s
end
```

Each pattern is a single character, so each `gsub` pass is the
character-wise map-expand `gsubChar`; the passes are applied in source
order. -/

/-- One `gsub` pass replacing every occurrence of the character `pat` by the
replacement string `rep`. -/
def gsubChar (pat : Char) (rep : List Char) : List Char → List Char
  | [] => []
  | c :: rest => (if c = pat then rep else [c]) ++ gsubChar pat rep rest

/-- The eight escaping passes of `escape_str`, in source order. -/
def escape_str (s : List Char) : List Char :=
  let s := gsubChar '\\' ['\\', '\\'] s
  let s := gsubChar '"' ['\\', '"'] s
  let s := gsubChar '/' ['\\', '/'] s
  let s := gsubChar '\x08' ['\\', 'b'] s
  let s := gsubChar '\x0c' ['\\', 'f'] s
  let s := gsubChar '\n' ['\\', 'n'] s
  let s := gsubChar '\r' ['\\', 'r'] s
  let s := gsubChar '\t' ['\\', 't'] s
  s

/-! ## `kind_of`

```lua
local function kind_of(obj)
  if type(obj) ~= 'table' then return type(obj) end
  local i = 1
  for _ in pairs(obj) do
    if obj[i] ~= nil then i = i + 1 else return 'table' end
  end
  if i == 1 then return 'table' else return 'array' end
end
```

For a table with `n` entries the loop runs `n` times and returns `'array'`
exactly when `n ≥ 1` and the integer keys `1 .. n` are all present. -/

inductive LuaKind where
  | karray | ktable | kstring | knumber | kboolean | knil
  deriving DecidableEq

/-- Whether the integer keys `1 .. n` are all present in the table. -/
def seqKeys (kvs : JPairs) (n : Nat) : Bool :=
  (List.range n).all (fun j => (lookupTab (.num (j + 1)) kvs).isSome)

def kind_of : JValue → LuaKind
  | .null => .knil
  | .bool _ => .kboolean
  | .num _ => .knumber
  | .str _ => .kstring
  | .table kvs =>
    if plen kvs = 0 then .ktable
    else if seqKeys kvs (plen kvs) then .karray else .ktable

/-! ## `json.encode`

```lua
function json.encode(obj, as_key)
  local s = {}
  local kind = kind_of(obj)
  if kind == 'array' then
    if as_key then error('Can not encode array as key.') end
    s[#s + 1] = '['
    for i, val in ipairs(obj) do
      if i > 1 then s[#s + 1] = ', ' end
      s[#s + 1] = json.encode(val)
    end
    s[#s + 1] = ']'
  elseif kind == 'table' then
    ...
  elseif kind == 'string' then return '"' .. escape_str(obj) .. '"'
  elseif kind == 'number' then return as_key and '"' .. tostring(obj) .. '"' or tostring(obj)
  elseif kind == 'boolean' then return tostring(obj)
  elseif kind == 'nil' then return 'null'
  else error('Unjsonifiable type: ' .. kind .. '.') end
  return table.concat(s)
end
```

(The `Unjsonifiable` branch is unreachable for `JValue`, which covers every
Lua type the codec can receive.)  The `ipairs` walk of an array-kind table
is modelled by `encSeq`, which looks indices `1, 2, ...` up until one is
missing — bounded by the entry count, which suffices because an array-kind
table with `n` entries has exactly the keys `1 .. n`. -/

/-- The two `error(...)` exits of `json.encode`. -/
inductive EncErr where
  | arrayAsKey  | tableAsKey
  deriving DecidableEq

mutual
/-- The encoder `json.encode(obj, as_key)`. -/
def json_encode (e : JValue) (as_key : Bool) : Except EncErr (List Char) :=
  match e with
  | .table kvs =>
    match kind_of (.table kvs) with
    | .karray =>
      if as_key then .error .arrayAsKey
      else do
        let body ← encSeq kvs (plen kvs) 1
        pure ('[' :: body ++ [']'])
    | _ =>
      if as_key then .error .tableAsKey
      else do
        let body ← encPairs kvs true
        pure ('{' :: body ++ ['}'])
  | .str s => pure ('"' :: escape_str s ++ ['"'])
  | .num n => pure (if as_key then '"' :: intRepr n ++ ['"'] else intRepr n)
  | .bool b => pure (if b then ['t', 'r', 'u', 'e'] else ['f', 'a', 'l', 's', 'e'])
  | .null => pure ['n', 'u', 'l', 'l']
termination_by 2 * jweight e
decreasing_by
  all_goals simp_wf
  all_goals simp [jweight]
  all_goals omega

/-- The `ipairs` loop of the array branch: element `i`, then `i+1`, ...;
a `', '` separator precedes every element but the first. -/
def encSeq (kvs : JPairs) (fuel : Nat) (i : Nat) : Except EncErr (List Char) :=
  match fuel with
  | 0 => pure []
  | fuel + 1 =>
    match h : lookupTab (.num i) kvs with
    | none => pure []
    | some v => do
      let ev ← json_encode v false
      let rest ← encSeq kvs fuel (i + 1)
      pure ((if 1 < i then [',', ' '] else []) ++ ev ++ rest)
termination_by 2 * pweight kvs + fuel + 1
decreasing_by
  all_goals simp_wf
  all_goals have h2 := lookupTab_weight _ _ _ h
  all_goals omega

/-- The `pairs` loop of the table branch: `key : value` with a `', '`
separator before every pair but the first. -/
def encPairs (kvs : JPairs) (first : Bool) : Except EncErr (List Char) :=
  match kvs with
  | .nil => pure []
  | .cons k v r => do
    let ek ← json_encode k true
    let ev ← json_encode v false
    let rest ← encPairs r false
    pure ((if first then [] else [',', ' ']) ++ ek ++ [':'] ++ ev ++ rest)
termination_by 2 * pweight kvs + 2 * plen kvs + 1
decreasing_by
  all_goals simp_wf
  all_goals simp [pweight, plen]
  all_goals omega
end

/-! ## `json.decode` and its helpers

```lua
local function skip_delim(str, pos, delim, err_if_missing)
  pos = pos + #str:match('^%s*', pos)
  if str:sub(pos, pos) ~= delim then
    if err_if_missing then error('Expected ' .. delim .. ' near position ' .. pos) end
    return pos, false
  end
  return pos + 1, true
end
```

The decoder walks the input as the remaining character list `rem` together
with the 1-based absolute position `pos` that the Lua code threads (the Lua
error messages interpolate `pos`; decisions depend only on `rem`).  Running
out of the recursion fuel is a distinguished outcome `PErr.fuelOut`, distinct
from every structured parse error; the sufficiency theorem below shows the
fuel passed by `json_decode_top` can never run out. -/

/-- The `error(...)` exits of the decoder.  A `Nat` argument is carried
exactly where the Lua message interpolates a byte position. -/
inductive ParseErr where
  /-- Message `'Reached unexpected end of input.'` (no position). -/
  | eofTop
  /-- Message `'End of input found while parsing string.'` (no position). -/
  | eofString
  /-- Message `'Expected <delim> near position <pos>'`. -/
  | expectedDelim (d : Char) (pos : Nat)
  /-- Message `'Error parsing number at position <pos>'`. -/
  | badNumber (pos : Nat)
  /-- The `tonumber(nil)` error raised when the anchored numeral pattern fails:
  `'bad argument ... (string expected, got nil)'` (no position). -/
  | numBadArg
  /-- Message `'Comma missing between object items.'` (no position). -/
  | missingCommaObj
  /-- Message `'Comma missing between array items.'` (no position). -/
  | missingCommaArr
  /-- Message `'Invalid JSON syntax starting at <pos>'`. -/
  | invalidSyntax (pos : Nat)
  deriving DecidableEq

/-- Whether the Lua message of the error interpolates the failure position. -/
def errHasPos : ParseErr → Bool
  | .expectedDelim _ _ => true
  | .badNumber _ => true
  | .invalidSyntax _ => true
  | _ => false

inductive PErr where
  | parse (e : ParseErr)
  | fuelOut
  deriving DecidableEq

/-- A character of the Lua `%s` class. -/
def luaSpace (c : Char) : Bool :=
  c = ' ' || c = '\t' || c = '\n' || c = '\x0b' || c = '\x0c' || c = '\r'

/-- Skip leading whitespace: `pos + #str:match('^%s*', pos)`. -/
def skipWs : List Char → Nat → List Char × Nat
  | [], p => ([], p)
  | c :: rest, p => if luaSpace c then skipWs rest (p + 1) else (c :: rest, p)

/-- The helper `skip_delim(str, pos, delim, err_if_missing)`. -/
def skip_delim (rem : List Char) (pos : Nat) (delim : Char) (err_if_missing : Bool) :
    Except ParseErr (List Char × Nat × Bool) :=
  match skipWs rem pos with
  | (c :: rest, p) =>
    if c = delim then .ok (rest, p + 1, true)
    else if err_if_missing then .error (.expectedDelim delim p)
    else .ok (c :: rest, p, false)
  | ([], p) =>
    if err_if_missing then .error (.expectedDelim delim p) else .ok ([], p, false)

/-!
```lua
local function parse_str_val(str, pos, val)
  val = val or ''
  local early_end_error = 'End of input found while parsing string.'
  if pos > #str then error(early_end_error) end
  local c = str:sub(pos, pos)
  if c == '"'  then return val, pos + 1 end
  if c ~= '\\' then return parse_str_val(str, pos + 1, val .. c) end
  local next_c = str:sub(pos + 1, pos + 1)
  if not next_c then error(early_end_error) end
  return parse_str_val(str, pos + 2, val .. next_c)
end
```

An escaped character is appended *verbatim* (`val .. next_c`); a backslash at
the very end of the input appends the empty `next_c` and fails on the next
recursive call.  (The `if not next_c` test can never fire: `str:sub` returns
the empty string, which is truthy.) -/

/-- The string parser `parse_str_val(str, pos)`: the accumulated characters, the remaining
input after the closing quote, and the position after it. -/
def parse_str_val : List Char → Nat → Except ParseErr (List Char × List Char × Nat)
  | [], _ => .error .eofString
  | '"' :: rest, p => .ok ([], rest, p + 1)
  | '\\' :: rest, p =>
    match rest with
    | [] => .error .eofString
    | c :: rest2 =>
      match parse_str_val rest2 (p + 2) with
      | .ok (v, r, p2) => .ok (c :: v, r, p2)
      | .error e => .error e
  | c :: rest, p =>
    match parse_str_val rest (p + 1) with
    | .ok (v, r, p2) => .ok (c :: v, r, p2)
    | .error e => .error e

/-!
```lua
local function parse_num_val(str, pos)
  local num_str = str:match('^-?%d+%.?%d*[eE]?[+-]?%d*', pos)
  local val = tonumber(num_str)
  if not val then error('Error parsing number at position ' .. pos) end
  return val, pos + #num_str
end
```

The anchored pattern is matched greedily element by element (its classes do
not overlap, so Lua pattern backtracking never occurs).  If the pattern does
not match at all (e.g. a bare `-`), `num_str` is `nil` and `tonumber(nil)`
raises a `bad argument` error.  If it matches but is not a Lua numeral
(exponent marker without exponent digits, or a sign without a preceding
exponent marker, as in `5+3`), `tonumber` returns `nil` and the
`Error parsing number` branch fires. -/

/-- The `'0'-'9'` prefix. -/
def takeDigits : List Char → List Char × List Char
  | [] => ([], [])
  | c :: rest =>
    if c.isDigit then
      match takeDigits rest with
      | (ds, r) => (c :: ds, r)
    else ([], c :: rest)

/-- The components captured by `'-?%d+%.?%d*[eE]?[+-]?%d*'`. -/
structure Numeral where
  sign : Bool
  ds : List Char
  dot : Bool
  frac : List Char
  hasE : Bool
  esign : Option Char
  eds : List Char
  deriving DecidableEq

/-- Number of characters the pattern match consumed. -/
def Numeral.len (n : Numeral) : Nat :=
  (if n.sign then 1 else 0) + n.ds.length + (if n.dot then 1 else 0) + n.frac.length +
    (if n.hasE then 1 else 0) + (if n.esign.isSome then 1 else 0) + n.eds.length

/-- An optional single-character pattern element (`-?`, `%.?`, `[eE]?`):
consume the head character when it matches. -/
def optPrefix (test : Char → Bool) : List Char → Bool × List Char
  | [] => (false, [])
  | c :: r => if test c then (true, r) else (false, c :: r)

/-- The optional exponent sign element `[+-]?`, keeping the sign char. -/
def optSign : List Char → Option Char × List Char
  | [] => (none, [])
  | c :: r => if c = '+' || c = '-' then (some c, r) else (none, c :: r)

/-- Anchored match of the numeral pattern; `none` when `%d+` finds no digit. -/
def matchNumeral (rem : List Char) : Option (Numeral × List Char) :=
  let s1 := optPrefix (fun c => c = '-') rem
  match takeDigits s1.2 with
  | ([], _) => none
  | (d :: ds, r2) =>
    let s3 := optPrefix (fun c => c = '.') r2
    match takeDigits s3.2 with
    | (frac, r4) =>
      let s5 := optPrefix (fun c => c = 'e' || c = 'E') r4
      let s6 := optSign s5.2
      match takeDigits s6.2 with
      | (eds, r7) =>
        some ({ sign := s1.1, ds := d :: ds, dot := s3.1, frac := frac,
                hasE := s5.1, esign := s6.1, eds := eds }, r7)

/-- Whether `tonumber` accepts the matched numeral. -/
def numeralOk (n : Numeral) : Bool :=
  !(n.esign.isSome && !n.hasE) && !(n.hasE && n.eds.isEmpty)

/-- The numeric value; the integer part of a float-shaped numeral (floating
point is outside the embedding; no theorem below depends on such a value). -/
def numeralVal (n : Numeral) : Int :=
  if n.sign then -(digitsVal n.ds : Int) else (digitsVal n.ds : Int)

/-- The number parser `parse_num_val(str, pos)`. -/
def parse_num_val (rem : List Char) (pos : Nat) : Except ParseErr (JValue × List Char × Nat) :=
  match matchNumeral rem with
  | none => .error .numBadArg
  | some (n, rest) =>
    if numeralOk n then .ok (.num (numeralVal n), rest, pos + n.len)
    else .error (.badNumber pos)

/-!
```lua
function json.decode(str, pos, end_delim)
  pos = pos or 1
  if pos > #str then error('Reached unexpected end of input.') end
  local pos = pos + #str:match('^%s*', pos)
  local first = str:sub(pos, pos)
  if first == '{' then
    local obj, key, delim_found = {}, true, true
    pos = pos + 1
    while true do
      key, pos = json.decode(str, pos, '}')
      if key == nil then return obj, pos end
      if not delim_found then error('Comma missing between object items.') end
      pos = skip_delim(str, pos, ':', true)
      obj[key], pos = json.decode(str, pos)
      pos, delim_found = skip_delim(str, pos, ',')
    end
  elseif first == '[' then
    local arr, val, delim_found = {}, true, true
    pos = pos + 1
    while true do
      val, pos = json.decode(str, pos, ']')
      if val == nil then return arr, pos end
      if not delim_found then error('Comma missing between array items.') end
      arr[#arr + 1] = val
      pos, delim_found = skip_delim(str, pos, ',')
    end
  elseif first == '"' then
    return parse_str_val(str, pos + 1)
  elseif first == '-' or first:match('%d') then
    return parse_num_val(str, pos)
  elseif first == end_delim then
    return nil, pos + 1
  else
    local literals = {['true'] = true, ['false'] = false, ['null'] = nil}
    for lit_str, lit_val in pairs(literals) do
      local lit_len = #lit_str
      if str:sub(pos, pos + lit_len - 1) == lit_str then return lit_val, pos + lit_len end
    end
    error('Invalid JSON syntax starting at ' .. pos)
  end
end
```

Note that the `literals` constructor entry `['null'] = nil` stores nothing in
a Lua table, so the loop only ever sees `'true'` and `'false'` (their
iteration order is immaterial: the prefix tests are mutually exclusive) and a
literal `null` input falls through to `Invalid JSON syntax`.  The two
`while true` loops are modelled by `json_decode_obj` / `json_decode_arr`;
`arr[#arr + 1] = val` appends the entry `(#arr + 1, val)`, and the running
border `#arr` of a table built this way is the carried counter `len`. -/

mutual
/-- The decoder `json.decode(str, pos, end_delim)`: on success the decoded value (`none`
models the `nil, pos + 1` return for a closing `end_delim`), the remaining
input and the next position. -/
def json_decode (fuel : Nat) (rem : List Char) (pos : Nat) (end_delim : Option Char) :
    Except PErr (Option JValue × List Char × Nat) :=
  match fuel with
  | 0 => .error .fuelOut
  | fuel + 1 =>
    match rem with
    | [] => .error (.parse .eofTop)
    | _ :: _ =>
      match skipWs rem pos with
      | (rem1, p1) =>
        match rem1 with
        | '{' :: rest => json_decode_obj fuel .nil true rest (p1 + 1)
        | '[' :: rest => json_decode_arr fuel .nil 0 true rest (p1 + 1)
        | '"' :: rest =>
          match parse_str_val rest (p1 + 1) with
          | .ok (v, r, p2) => .ok (some (.str v), r, p2)
          | .error e => .error (.parse e)
        | c :: rest =>
          if c = '-' || c.isDigit then
            match parse_num_val (c :: rest) p1 with
            | .ok (v, r, p2) => .ok (some v, r, p2)
            | .error e => .error (.parse e)
          else if end_delim = some c then .ok (none, rest, p1 + 1)
          else if (c :: rest).take 4 = ['t', 'r', 'u', 'e'] then
            .ok (some (.bool true), (c :: rest).drop 4, p1 + 4)
          else if (c :: rest).take 5 = ['f', 'a', 'l', 's', 'e'] then
            .ok (some (.bool false), (c :: rest).drop 5, p1 + 5)
          else .error (.parse (.invalidSyntax p1))
        | [] => .error (.parse (.invalidSyntax p1))
termination_by structural fuel

/-- The `while true` loop of the `'{'` branch. -/
def json_decode_obj (fuel : Nat) (obj : JPairs) (delim_found : Bool)
    (rem : List Char) (pos : Nat) : Except PErr (Option JValue × List Char × Nat) :=
  match fuel with
  | 0 => .error .fuelOut
  | fuel + 1 =>
    match json_decode fuel rem pos (some '}') with
    | .error e => .error e
    | .ok (keyOpt, rem1, p1) =>
      match keyOpt with
      | none => .ok (some (.table obj), rem1, p1)
      | some key =>
        if !delim_found then .error (.parse .missingCommaObj)
        else
          match skip_delim rem1 p1 ':' true with
          | .error e => .error (.parse e)
          | .ok (rem2, p2, _) =>
            match json_decode fuel rem2 p2 none with
            | .error e => .error e
            | .ok (valOpt, rem3, p3) =>
              match skip_delim rem3 p3 ',' false with
              | .error e => .error (.parse e)
              | .ok (rem4, p4, df) =>
                json_decode_obj fuel (setTab key valOpt obj) df rem4 p4
termination_by structural fuel

/-- The `while true` loop of the `'['` branch. -/
def json_decode_arr (fuel : Nat) (arr : JPairs) (len : Nat) (delim_found : Bool)
    (rem : List Char) (pos : Nat) : Except PErr (Option JValue × List Char × Nat) :=
  match fuel with
  | 0 => .error .fuelOut
  | fuel + 1 =>
    match json_decode fuel rem pos (some ']') with
    | .error e => .error e
    | .ok (valOpt, rem1, p1) =>
      match valOpt with
      | none => .ok (some (.table arr), rem1, p1)
      | some v =>
        if !delim_found then .error (.parse .missingCommaArr)
        else
          match skip_delim rem1 p1 ',' false with
          | .error e => .error (.parse e)
          | .ok (rem2, p2, df) =>
            json_decode_arr fuel (setTab (.num (len + 1)) (some v) arr) (len + 1) df rem2 p2
termination_by structural fuel
end

/-- Fuel that `json_decode_top` passes; shown sufficient below. -/
def decodeFuel (s : List Char) : Nat := 2 * s.length + 2

/-- The top-level call `json.decode(str)` (with `pos = 1` and no
`end_delim`), as performed by the bridge.  Lua discards the remaining-input
component and returns the value and the final position. -/
def json_decode_top (s : List Char) : Except PErr (Option JValue × Nat) :=
  match json_decode (decodeFuel s) s 1 none with
  | .ok (v, _, p) => .ok (v, p)
  | .error e => .error e

/-! ## Filesystem model

The mailbox directory is modelled as an association list from paths to file
contents.  `os.rename` is the atomic primitive: it fails exactly when the
source path does not exist, and otherwise moves the content in one step
(overwriting any destination, as POSIX rename does).  File writes are
modelled as always succeeding (`write_file` silently returns on an open
failure; disk-full behaviour is outside the embedding). -/

/-- Mailbox state: which path holds which content. -/
abbrev FS : Type := List (String × String)

def fsGet (fs : FS) (p : String) : Option String :=
  match fs with
  | [] => none
  | (q, c) :: rest => if q = p then some c else fsGet rest p

def fsDel (fs : FS) (p : String) : FS :=
  match fs with
  | [] => []
  | (q, c) :: rest => if q = p then fsDel rest p else (q, c) :: fsDel rest p

def fsSet (fs : FS) (p : String) (c : String) : FS :=
  (p, c) :: fsDel fs p

/-- Model of `os.rename(src, dst)`: atomically move, or fail when the source
is absent. -/
def os_rename (fs : FS) (src dst : String) : Bool × FS :=
  match fsGet fs src with
  | none => (false, fs)
  | some c => (true, fsSet (fsDel fs src) dst c)

/-- Observable filesystem actions of one tick, in order. -/
inductive FsEvent where
  | write (path : String) (content : String)
  | renameOk (src dst : String)
  | renameFail (src dst : String)
  | remove (path : String)
  deriving DecidableEq

/-! ## Paths

```lua
local MCP_DIR = dt.configuration.config_dir .. "/mcp"
local CMD_FILE = MCP_DIR .. "/cmd.json"
local PROC_FILE = MCP_DIR .. "/processing.json" -- Atomic move target
local RESP_TMP_FILE = MCP_DIR .. "/response.json.tmp"
local RESP_FILE = MCP_DIR .. "/response.json"
```

The common `config_dir` prefix is abstracted to `"mcp"`; the legacy
single-slot bridge uses the same `cmd.json` / `response.json` paths. -/

def MCP_DIR : String := "mcp"
def CMD_FILE : String := MCP_DIR ++ "/cmd.json"
def PROC_FILE : String := MCP_DIR ++ "/processing.json"
def RESP_TMP_FILE : String := MCP_DIR ++ "/response.json.tmp"
def RESP_FILE : String := MCP_DIR ++ "/response.json"

/-! ## Command registry

The five commands of the multi-request bridge.  Handler bodies act on the
darktable database through the `dt` API (outside this repository), so
handlers are opaque: a handler receives the `args` value and either returns
a result value or raises (models `pcall(commands[cmd_name], args)`). -/

/-- A registry: command name to opaque handler. -/
def Handlers : Type := String → Option (JValue → Except String JValue)

/-- The names registered by the multi-request bridge, in source order. -/
def commandNames : List String :=
  ["set_rating", "set_color_label", "attach_tag", "get_selection", "apply_style"]

/-- The names registered by the legacy single-slot bridge. -/
def legacyCommandNames : List String := ["set_rating", "attach_tag", "apply_style"]

/-- The registry built from a table of opaque handler bodies. -/
def mkRegistry (names : List String) (impl : String → JValue → Except String JValue) :
    Handlers :=
  fun n => if n ∈ names then some (impl n) else none

/-! ## Lua helpers used by the dispatch code -/

/-- Lua truthiness: everything but `nil` and `false`. -/
def truthy : JValue → Bool
  | .null => false
  | .bool b => b
  | _ => true

/-- Lua `tostring` (`none` is Lua `nil`).  The address rendered for a table
is abstracted; no theorem below inspects it. -/
def luaTostring : Option JValue → String
  | none => "nil"
  | some (.str s) => String.mk s
  | some (.num n) => String.mk (intRepr n)
  | some (.bool b) => if b then "true" else "false"
  | some .null => "nil"
  | some (.table _) => "table: 0x0"

/-- Lua field read `v.field`: table lookup for tables, `nil` for strings
(which carry the string-library metatable), and an `attempt to index`
error for numbers, booleans and `nil`. -/
def luaIndex (v : JValue) (field : String) : Except String (Option JValue) :=
  match v with
  | .table kvs => .ok (lookupTab (.str field.data) kvs)
  | .str _ => .ok none
  | .num _ => .error "attempt to index a number value"
  | .bool _ => .error "attempt to index a boolean value"
  | .null => .error "attempt to index a nil value"

/-- The Lua message text of a decoder error (the `chunk:line:` prefix that
`error` prepends is abstracted away; no theorem below inspects these). -/
def errText : ParseErr → String
  | .eofTop => "Reached unexpected end of input."
  | .eofString => "End of input found while parsing string."
  | .expectedDelim d p => "Expected " ++ String.mk [d] ++ " near position " ++ String.mk (decRepr p)
  | .badNumber p => "Error parsing number at position " ++ String.mk (decRepr p)
  | .numBadArg => "bad argument to tonumber (string expected, got nil)"
  | .missingCommaObj => "Comma missing between object items."
  | .missingCommaArr => "Comma missing between array items."
  | .invalidSyntax p => "Invalid JSON syntax starting at " ++ String.mk (decRepr p)

/-! ## `process_commands` (multi-request bridge, the backend watcher tick)

```lua
local function process_commands()
    local f = io.open(CMD_FILE, "r")
    if not f then return end -- No command
    f:close()

    -- Atomic processing: Try to rename cmd.json -> processing.json
    local success, err = os.rename(CMD_FILE, PROC_FILE)
    if not success then
        -- Could be race condition, or permission. Log and retry next tick
        log("Failed to rename command file: " .. tostring(err))
        return
    end

    local content = read_file(PROC_FILE)
    if not content or content == "" then
        os.remove(PROC_FILE)
        return
    end

    local request = nil
    local status_parse, res_parse = pcall(json.decode, content)
    local result_payload = {}
    if status_parse and res_parse then
        request = res_parse
        local cmd_name = request.cmd
        local args = request.args or {}
        if commands[cmd_name] then
            local status_exec, res_exec = pcall(commands[cmd_name], args)
            if status_exec then
                result_payload = { status = "ok", data = res_exec }
            else
                result_payload = { status = "error", error = tostring(res_exec) }
            end
        else
            result_payload = { status = "error", error = "Unknown command: " .. tostring(cmd_name) }
        end
    else
        result_payload = { status = "error", error = "JSON parse error: " .. tostring(res_parse) }
    end
    local resp_str = json.encode(result_payload)
    write_file(RESP_TMP_FILE, resp_str)
    os.rename(RESP_TMP_FILE, RESP_FILE)
    os.remove(PROC_FILE)
end
```

One tick is a function of the mailbox state.  The only shared-state race the
protocol admits is a competing claimer moving `cmd.json` away between our
`io.open` check and our `os.rename`; the `stolen` flag injects exactly that
interleaving (the rename itself is atomic).  `request.cmd` on a value that is
neither a table nor a string raises an uncaught Lua error: that terminates
the tick with no response (outcome `crashedIndex`), and an unencodable
handler result likewise escapes `json.encode` (outcome `crashedEncode`). -/

/-- The response envelope the tick computes before serialising it. -/
inductive RespPayload where
  | ok (data : JValue)
  | err (msg : String)
  deriving DecidableEq

/-- The Lua table `{ status = ..., ... }` for a response payload (a `nil`
`data` stores no entry, as in Lua). -/
def respTable : RespPayload → JValue
  | .ok d =>
    .table (.cons (.str "status".data) (.str "ok".data)
      (if d = .null then .nil else .cons (.str "data".data) d .nil))
  | .err m =>
    .table (.cons (.str "status".data) (.str "error".data)
      (.cons (.str "error".data) (.str m.data) .nil))

/-- How one watcher tick ended. -/
inductive TickOutcome where
  /-- When `io.open(CMD_FILE)` failed: no command, plain return. -/
  | noCommand
  /-- the claim rename failed: logged and the tick returns; the caller
  retries on its next poll tick. -/
  | claimLostRetry
  /-- claimed, but the content was empty (or unreadable): the processing
  file is removed and the tick returns with no response. -/
  | emptyDiscarded
  /-- a response was published. -/
  | published (resp : RespPayload)
  /-- an uncaught `attempt to index` error escaped the tick. -/
  | crashedIndex (msg : String)
  /-- an uncaught `json.encode` error escaped the tick. -/
  | crashedEncode (e : EncErr)
  /-- decoder fuel ran out (shown unreachable). -/
  | fuelOut
  deriving DecidableEq

/-- Result of one tick: outcome, final mailbox state, events in order. -/
structure TickResult where
  outcome : TickOutcome
  fs : FS
  trace : List FsEvent

/-- Serialise `result_payload`, write the temp file, atomically rename it
onto `RESP_FILE`, and remove the processing file (source lines 294-305). -/
def publishResp (fs : FS) (tr : List FsEvent) (p : RespPayload) : TickResult :=
  match json_encode (respTable p) false with
  | .error e => ⟨.crashedEncode e, fs, tr⟩
  | .ok respChars =>
    let respStr := String.mk respChars
    let fs1 := fsSet fs RESP_TMP_FILE respStr
    match os_rename fs1 RESP_TMP_FILE RESP_FILE with
    | (rok, fs2) =>
      let fs3 := fsDel fs2 PROC_FILE
      ⟨.published p, fs3,
        tr ++ [.write RESP_TMP_FILE respStr,
               if rok then .renameOk RESP_TMP_FILE RESP_FILE
               else .renameFail RESP_TMP_FILE RESP_FILE,
               .remove PROC_FILE]⟩

/-- One tick of `process_commands` over mailbox state `fs0`; `stolen` injects
a racing claimer moving `cmd.json` away inside the open-to-rename window. -/
def process_commands (handlers : Handlers) (fs0 : FS) (stolen : Bool) : TickResult :=
  match fsGet fs0 CMD_FILE with
  | none => ⟨.noCommand, fs0, []⟩
  | some _ =>
    let fs1 := if stolen then fsDel fs0 CMD_FILE else fs0
    match os_rename fs1 CMD_FILE PROC_FILE with
    | (false, fs2) => ⟨.claimLostRetry, fs2, [.renameFail CMD_FILE PROC_FILE]⟩
    | (true, fs2) =>
      let tr0 := [FsEvent.renameOk CMD_FILE PROC_FILE]
      match fsGet fs2 PROC_FILE with
      | none => ⟨.emptyDiscarded, fsDel fs2 PROC_FILE, tr0 ++ [.remove PROC_FILE]⟩
      | some content =>
        if content = "" then
          ⟨.emptyDiscarded, fsDel fs2 PROC_FILE, tr0 ++ [.remove PROC_FILE]⟩
        else
          match json_decode_top content.data with
          | .error .fuelOut => ⟨.fuelOut, fs2, tr0⟩
          | .error (.parse e) =>
            publishResp fs2 tr0 (.err ("JSON parse error: " ++ errText e))
          | .ok (vOpt, _) =>
            match vOpt with
            | none => publishResp fs2 tr0 (.err ("JSON parse error: nil"))
            | some v =>
              if !truthy v then
                publishResp fs2 tr0 (.err ("JSON parse error: " ++ luaTostring (some v)))
              else
                match luaIndex v "cmd" with
                | .error msg => ⟨.crashedIndex msg, fs2, tr0⟩
                | .ok cmdName =>
                  match luaIndex v "args" with
                  | .error msg => ⟨.crashedIndex msg, fs2, tr0⟩
                  | .ok argsOpt =>
                    let args : JValue :=
                      match argsOpt with
                      | some a => if truthy a then a else .table .nil
                      | none => .table .nil
                    match cmdName with
                    | some (.str name) =>
                      match handlers (String.mk name) with
                      | some h =>
                        match h args with
                        | .ok res => publishResp fs2 tr0 (.ok res)
                        | .error m => publishResp fs2 tr0 (.err m)
                      | none =>
                        publishResp fs2 tr0
                          (.err ("Unknown command: " ++ String.mk name))
                    | other =>
                      publishResp fs2 tr0
                        (.err ("Unknown command: " ++ luaTostring other))

/-! ## `check_command` (legacy single-slot bridge, `tools/mcp-server/dt_mcp_bridge.lua`)

```lua
local function check_command()
    local content = read_file(CMD_FILE)
    if not content or content == "" then return end

    -- Clear file immediately to prevent double execution
    write_file(CMD_FILE, "")

    -- Protocol: CMD_NAME|JSON_ARGS
    local cmd_name, json_args = content:match("^(.-)|(.*)$")
    if not cmd_name then return end

    local status, result
    local args = {}
    for k,v in json_args:gmatch([["(%w+)":%s*"?([^",}]+)"?]]) do
        if tonumber(v) then args[k] = tonumber(v) else args[k] = v end
    end

    if commands[cmd_name] then
        status, result = pcall(commands[cmd_name], args)
    else
        status = false
        result = "Unknown command: " .. cmd_name
    end

    local resp_str
    if status then
        resp_str = '{"status": "ok", "data": "' .. tostring(result) .. '"}'
    else
        resp_str = '{"status": "error", "error": "' .. tostring(result) .. '"}'
    end

    write_file(RESP_FILE, resp_str)
end
```

The response is written *directly* to `RESP_FILE` — there is no temp file
and no rename in this bridge, and the claim is a read followed by a
truncating write, not a rename. -/

/-- Lazy split `content:match("^(.-)|(.*)$")` at the first bar. -/
def splitBar : List Char → Option (List Char × List Char)
  | [] => none
  | '|' :: rest => some ([], rest)
  | c :: rest =>
    match splitBar rest with
    | some (a, b) => some (c :: a, b)
    | none => none

/-- Lua `%w`: letters and digits. -/
def isW (c : Char) : Bool := c.isAlphanum

/-- Characters admitted by the class `[^",}]`. -/
def notValEnd (c : Char) : Bool := !(c = '"' || c = ',' || c = '}')

/-- Greedy prefix of characters satisfying `f`. -/
def takeSpan (f : Char → Bool) : List Char → List Char × List Char
  | [] => ([], [])
  | c :: rest =>
    if f c then
      match takeSpan f rest with
      | (a, b) => (c :: a, b)
    else ([], c :: rest)

/-- Drop a whitespace prefix (the `%s*` element). -/
def dropWsL (s : List Char) : List Char := (takeSpan luaSpace s).2

/-- Try the anchored pattern `"(%w+)":%s*"?([^",}]+)"?` at the head of `s`,
returning the two captures and the rest.  The greedy optional quote before
the value backtracks to empty when the value class would otherwise be
empty, as Lua pattern matching does. -/
def matchArgAt (s : List Char) : Option (List Char × List Char × List Char) :=
  match s with
  | '"' :: s1 =>
    match takeSpan isW s1 with
    | ([], _) => none
    | (k, s2) =>
      match s2 with
      | '"' :: ':' :: s3 =>
        let s4 := dropWsL s3
        let tryVal : List Char → Option (List Char × List Char) := fun t =>
          match takeSpan notValEnd t with
          | ([], _) => none
          | (v, s6) =>
            let s7 := match s6 with
              | '"' :: r => r
              | _ => s6
            some (v, s7)
        (match s4 with
         | '"' :: r =>
           (match tryVal r with
            | some (v, rest) => some (k, v, rest)
            | none =>
              match tryVal s4 with
              | some (v, rest) => some (k, v, rest)
              | none => none)
         | _ =>
           match tryVal s4 with
           | some (v, rest) => some (k, v, rest)
           | none => none)
      | _ => none
  | _ => none

/-- The `gmatch` loop: scan for matches, resuming after each match and
advancing one character after a failed position (fuel bounds the scan; the
callers pass the input length, which suffices since every step consumes at
least one character). -/
def gmatchArgs (fuel : Nat) (s : List Char) : List (List Char × List Char) :=
  match fuel, s with
  | 0, _ => []
  | _, [] => []
  | fuel + 1, c :: rest =>
    match matchArgAt (c :: rest) with
    | some (k, v, r) => (k, v) :: gmatchArgs fuel r
    | none => gmatchArgs fuel rest

/-- Lua `tonumber` on a captured argument string, restricted to decimal
integers (optionally signed, surrounded by whitespace); float and hex forms
are outside the embedding and only affect opaque handler arguments. -/
def luaTonumberInt (s : List Char) : Option Int :=
  let s1 := dropWsL s
  let sgn := match s1 with
    | '-' :: r => (true, r)
    | '+' :: r => (false, r)
    | _ => (false, s1)
  match takeDigits sgn.2 with
  | ([], _) => none
  | (ds, r) =>
    if dropWsL r = [] then
      some (if sgn.1 then -(digitsVal ds : Int) else (digitsVal ds : Int))
    else none

/-- The `args` table built by the `gmatch` loop. -/
def legacyArgs (pairs : List (List Char × List Char)) : JValue :=
  .table (pairs.foldl (fun acc kv =>
    setTab (.str kv.1) (some (match luaTonumberInt kv.2 with
      | some n => .num n
      | none => .str kv.2)) acc) .nil)

/-- How one legacy tick ended. -/
inductive LegacyOutcome where
  /-- no command file, or empty content: plain return. -/
  | noCommand
  /-- content without a bar: the slot was already cleared, yet the tick
  returns without writing any response. -/
  | malformedDropped
  /-- the raw response text written (directly) to `RESP_FILE`. -/
  | published (resp : String)
  deriving DecidableEq

/-- One tick of the legacy `check_command` over mailbox state `fs0`. -/
def check_command (handlers : Handlers) (fs0 : FS) :
    LegacyOutcome × FS × List FsEvent :=
  match fsGet fs0 CMD_FILE with
  | none => (.noCommand, fs0, [])
  | some content =>
    if content = "" then (.noCommand, fs0, [])
    else
      let fs1 := fsSet fs0 CMD_FILE ""
      let tr1 := [FsEvent.write CMD_FILE ""]
      match splitBar content.data with
      | none => (.malformedDropped, fs1, tr1)
      | some (cmdName, jsonArgs) =>
        let args := legacyArgs (gmatchArgs jsonArgs.length jsonArgs)
        let sr :=
          match handlers (String.mk cmdName) with
          | some h =>
            match h args with
            | .ok res => (true, luaTostring (some res))
            | .error m => (false, m)
          | none => (false, "Unknown command: " ++ String.mk cmdName)
        let respStr :=
          if sr.1 then
            "\x7b\"status\": \"ok\", \"data\": \"" ++ sr.2 ++ "\"\x7d"
          else
            "\x7b\"status\": \"error\", \"error\": \"" ++ sr.2 ++ "\"\x7d"
        (.published respStr, fsSet fs1 RESP_FILE respStr,
          tr1 ++ [.write RESP_FILE respStr])

/-! ## `check_status` (frontend status reader)

```lua
    local function check_status()
        local sfile = DT_MCP_DIR .. "/gui_status.json"
        local f = io.open(sfile, "r")
        if f then
            local content = f:read("*all")
            f:close()
            local status = json.decode(content)
            if status and status.message then
                 status_cloud.label = status.message
            end
        else
            status_cloud.label = "Server Offline (No Status)"
        end
    end
```

The decode is *not* wrapped in `pcall`, so a decode error raised on
malformed content escapes the UI callback; the function reads no clock and
performs no staleness check. -/

/-- How one `check_status` call ended, as a function of the status file
content (`none` models an absent file). -/
inductive StatusOutcome where
  /-- the label is set to the decoded `message` field. -/
  | labelSet (v : JValue)
  /-- absent file: the label is set to `Server Offline (No Status)`. -/
  | offlineNoStatus
  /-- decoded, but no truthy `message` field: the label is left as it was. -/
  | unchanged
  /-- an uncaught decode error escapes the callback. -/
  | raisedParse (e : ParseErr)
  /-- an uncaught `attempt to index` error escapes the callback. -/
  | raisedIndex (msg : String)
  /-- decoder fuel ran out (shown unreachable). -/
  | fuelOut
  deriving DecidableEq

def check_status (statusContent : Option String) : StatusOutcome :=
  match statusContent with
  | none => .offlineNoStatus
  | some content =>
    match json_decode_top content.data with
    | .error .fuelOut => .fuelOut
    | .error (.parse e) => .raisedParse e
    | .ok (vOpt, _) =>
      match vOpt with
      | none => .unchanged
      | some v =>
        if !truthy v then .unchanged
        else
          match luaIndex v "message" with
          | .error m => .raisedIndex m
          | .ok mOpt =>
            match mOpt with
            | some mv => if truthy mv then .labelSet mv else .unchanged
            | none => .unchanged

/-! ## Request submission filenames

```lua
-- GUI button handlers (both Auto-Tag and Smart Cull):
local q = DT_MCP_DIR .. "/gui_request_" .. os.time() .. ".json"
-- register_storage callback:
local timestamp = os.time()
local unique_file = DT_MCP_DIR .. "/upload_" .. timestamp .. "_" .. image.id .. ".json"
```

The directory prefix (the global `DT_MCP_DIR`) is abstracted to `"mcp"`,
common to every submission. -/

/-- The filename a GUI tool request is filed under: the timestamp alone. -/
def gui_request_file (time : Nat) : String :=
  String.mk ("mcp/gui_request_".data ++ decRepr time ++ ".json".data)

/-- The filename an upload request is filed under: timestamp and image id. -/
def upload_file (time : Nat) (imageId : Nat) : String :=
  String.mk ("mcp/upload_".data ++ decRepr time ++ "_".data ++ decRepr imageId ++ ".json".data)

/-- One GUI tool submission: which tool was clicked, at what clock second. -/
structure GuiSubmission where
  tool : String
  time : Nat
  deriving DecidableEq

/-- The mailbox filename a GUI submission is filed under. -/
def GuiSubmission.file (s : GuiSubmission) : String := gui_request_file s.time

/-! ## Trace predicates -/

/-- Publishing event: the atomic rename of the temp file onto `RESP_FILE`. -/
def isPublishEvent : FsEvent → Bool
  | .renameOk src dst => src = RESP_TMP_FILE && dst = RESP_FILE
  | _ => false

/-- Number of response publications a trace performs. -/
def countPublish (tr : List FsEvent) : Nat := tr.countP (fun e => isPublishEvent e)

/-- Whether a trace contains a claim (a successful rename of `cmd.json`). -/
def claimed (tr : List FsEvent) : Bool :=
  tr.any (fun e =>
    match e with
    | .renameOk src _ => src = CMD_FILE
    | _ => false)

/-- The temp-then-rename publishing discipline: the final response path is
never written directly, and every rename onto it moves the temp file after
that temp file was written earlier in the trace. -/
def publishViaTemp (seenTmp : Bool) : List FsEvent → Bool
  | [] => true
  | e :: rest =>
    match e with
    | .write p _ =>
      if p = RESP_FILE then false
      else publishViaTemp (seenTmp || p = RESP_TMP_FILE) rest
    | .renameOk src dst =>
      if dst = RESP_FILE then
        (src = RESP_TMP_FILE && seenTmp) && publishViaTemp seenTmp rest
      else publishViaTemp seenTmp rest
    | _ => publishViaTemp seenTmp rest

/-- Whether a trace writes the final response path directly. -/
def writesFinalDirectly (tr : List FsEvent) : Bool :=
  tr.any (fun e =>
    match e with
    | .write p _ => p = RESP_FILE
    | _ => false)

/-- A concrete registry for closed evaluations; the handler bodies act on
the darktable database outside this repository, so any concrete stand-in
serves for runs that never reach a handler (or whose result is opaque). -/
def demoRegistry : Handlers := mkRegistry commandNames (fun _ _ => .ok .null)

/-! ## Filesystem lemmas -/

theorem fsGet_fsDel_self (fs : FS) (p : String) : fsGet (fsDel fs p) p = none := by
  induction fs with
  | nil => rfl
  | cons qc rest ih =>
    obtain ⟨q, c⟩ := qc
    by_cases h : q = p
    · simp [fsDel, h, ih]
    · simp [fsDel, h, fsGet, ih]

theorem fsGet_fsDel_ne (fs : FS) (p q : String) (h : p ≠ q) :
    fsGet (fsDel fs p) q = fsGet fs q := by
  have h2 : q ≠ p := fun hh => h hh.symm
  induction fs with
  | nil => rfl
  | cons rc rest ih =>
    obtain ⟨r, c⟩ := rc
    by_cases hr : r = p
    · subst hr
      simp [fsDel, fsGet, h, ih]
    · by_cases hq : r = q <;> simp [fsDel, hr, fsGet, hq, h2, ih]

theorem fsGet_fsSet_self (fs : FS) (p : String) (c : String) :
    fsGet (fsSet fs p c) p = some c := by
  simp [fsSet, fsGet]

theorem fsGet_fsSet_ne (fs : FS) (p q : String) (c : String) (h : p ≠ q) :
    fsGet (fsSet fs p c) q = fsGet fs q := by
  simp [fsSet, fsGet, h, fsGet_fsDel_ne fs p q h]

/-! ## Publishing lemmas -/

/-- An error payload always serialises: its table has the two string keys
`status` and `error` and string values, which `json.encode` never rejects. -/
theorem json_encode_err (m : String) :
    json_encode (respTable (.err m)) false =
      .ok ("\x7b\"status\":\"error\", \"error\":\"".data ++ escape_str m.data ++ "\"\x7d".data) := by
  simp [respTable, json_encode, kind_of, plen, seqKeys, encPairs, lookupTab,
    escape_str, gsubChar, Except.bind, List.range, List.range.loop, bind, pure, Except.pure]

theorem publishResp_spec (fs : FS) (tr : List FsEvent) (p : RespPayload) (s : List Char)
    (he : json_encode (respTable p) false = .ok s) :
    (publishResp fs tr p).outcome = .published p ∧
    (publishResp fs tr p).trace =
      tr ++ [.write RESP_TMP_FILE (String.mk s),
             .renameOk RESP_TMP_FILE RESP_FILE, .remove PROC_FILE] := by
  unfold publishResp
  rw [he]
  simp [os_rename, fsGet_fsSet_self]

theorem countPublish_append (a b : List FsEvent) :
    countPublish (a ++ b) = countPublish a + countPublish b := by
  simp [countPublish, List.countP_append]

theorem countPublish_publish_events (c : String) :
    countPublish [FsEvent.write RESP_TMP_FILE c,
      FsEvent.renameOk RESP_TMP_FILE RESP_FILE, FsEvent.remove PROC_FILE] = 1 := by
  simp [countPublish, List.countP_cons, isPublishEvent]

theorem countPublish_claim_event :
    countPublish [FsEvent.renameOk CMD_FILE PROC_FILE] = 0 := by
  simp only [countPublish, List.countP_cons, List.countP_nil, isPublishEvent]
  decide

/-- A tick that reaches the serialise-and-publish epilogue with an error
payload publishes exactly once. -/
theorem publishResp_err_count (fs : FS) (m : String) :
    (publishResp fs [FsEvent.renameOk CMD_FILE PROC_FILE] (.err m)).outcome =
      .published (.err m) ∧
    countPublish (publishResp fs [FsEvent.renameOk CMD_FILE PROC_FILE] (.err m)).trace = 1 := by
  obtain ⟨ho, ht⟩ := publishResp_spec fs _ (.err m) _ (json_encode_err m)
  refine ⟨ho, ?_⟩
  rw [ht, countPublish_append, countPublish_claim_event, countPublish_publish_events]

/-- A tick that reaches the publish epilogue with a serialisable payload
publishes exactly once. -/
theorem publishResp_ok_count (fs : FS) (p : RespPayload) (s : List Char)
    (he : json_encode (respTable p) false = .ok s) :
    (publishResp fs [FsEvent.renameOk CMD_FILE PROC_FILE] p).outcome = .published p ∧
    countPublish (publishResp fs [FsEvent.renameOk CMD_FILE PROC_FILE] p).trace = 1 := by
  obtain ⟨ho, ht⟩ := publishResp_spec fs _ p _ he
  refine ⟨ho, ?_⟩
  rw [ht, countPublish_append, countPublish_claim_event, countPublish_publish_events]

/-- Whatever payload the epilogue is reached with, its trace keeps the
temp-then-rename discipline (also when serialisation fails and nothing is
written). -/
theorem publishViaTemp_publishResp (fs : FS) (p : RespPayload) :
    publishViaTemp false (publishResp fs [FsEvent.renameOk CMD_FILE PROC_FILE] p).trace = true := by
  unfold publishResp
  cases json_encode (respTable p) false with
  | error e =>
    simp [publishViaTemp]
    decide
  | ok s =>
    simp only [os_rename, fsGet_fsSet_self]
    simp [publishViaTemp]
    decide



/-! # Claim theorems -/

/-- C1: the backend claim operation takes ownership of a pending request by
the single atomic rename of `cmd.json` onto `processing.json`.  First
conjunct: from any mailbox state, once one claimer's rename has succeeded a
second rename of the same slot cannot also succeed (each rename is one
atomic step, so any interleaving of two racing claimers is a sequence of
the two renames, and the state quantifier covers both orders) — no request
can be claimed twice.  Second conjunct: a tick whose rename fails because a
racing claimer moved the file away inside the open-to-rename window ends in
`claimLostRetry` — the logged plain return that leaves the retry to the
next poll tick — and publishes nothing; it is not a fatal outcome. -/
theorem c1_atomic_claim_race_is_retried :
    (∀ fs : FS,
      ¬((os_rename fs CMD_FILE PROC_FILE).1 = true ∧
        (os_rename (os_rename fs CMD_FILE PROC_FILE).2 CMD_FILE PROC_FILE).1 = true)) ∧
    (∀ (handlers : Handlers) (fs : FS),
      fsGet fs CMD_FILE ≠ none →
      (process_commands handlers fs true).outcome = .claimLostRetry ∧
      countPublish (process_commands handlers fs true).trace = 0) := by
  constructor
  · intro fs hc
    obtain ⟨h1, h2⟩ := hc
    cases hg : fsGet fs CMD_FILE with
    | none => simp [os_rename, hg] at h1
    | some c =>
      have hfs2 : (os_rename fs CMD_FILE PROC_FILE).2 =
          fsSet (fsDel fs CMD_FILE) PROC_FILE c := by
        simp [os_rename, hg]
      rw [hfs2] at h2
      have hnone : fsGet (fsSet (fsDel fs CMD_FILE) PROC_FILE c) CMD_FILE = none := by
        rw [fsGet_fsSet_ne _ _ _ _ (by decide), fsGet_fsDel_self]
      simp [os_rename, hnone] at h2
  · intro handlers fs h
    cases hg : fsGet fs CMD_FILE with
    | none => exact absurd hg h
    | some c =>
      have hdel : fsGet (fsDel fs CMD_FILE) CMD_FILE = none := fsGet_fsDel_self fs CMD_FILE
      unfold process_commands
      rw [hg]
      simp only [if_true]
      simp [os_rename, hdel, countPublish, List.countP_cons, isPublishEvent]

/-- C1 witness: a concrete slot with a pending request, raced. -/
theorem c1_witness :
    fsGet [(CMD_FILE, "x")] CMD_FILE ≠ none ∧
    ((process_commands demoRegistry [(CMD_FILE, "x")] true).outcome = .claimLostRetry ∧
     countPublish (process_commands demoRegistry [(CMD_FILE, "x")] true).trace = 0) :=
  ⟨by decide, c1_atomic_claim_race_is_retried.2 demoRegistry [(CMD_FILE, "x")] (by decide)⟩

/-- C2 counterexample: a pending slot holding an empty payload is
successfully claimed — the atomic rename occurs, as `claimed` of the trace
shows — yet the tick deletes the claimed artifact and returns without ever
publishing a response, refuting the claim that every successfully claimed
request gets exactly one response. -/
theorem c2_counterex_claimed_without_response :
    claimed (process_commands demoRegistry [(CMD_FILE, "")] false).trace = true ∧
    (process_commands demoRegistry [(CMD_FILE, "")] false).outcome = .emptyDiscarded ∧
    countPublish (process_commands demoRegistry [(CMD_FILE, "")] false).trace = 0 := by
  decide

/-- C3 counterexample: the legacy single-slot bridge publishes a response by
writing the final response path directly — its trace writes `response.json`
with no temporary file and no rename — refuting the claim that every
response publish goes through a temporary path and an atomic rename. -/
theorem c3_counterex_legacy_writes_final_directly :
    (check_command demoRegistry [(CMD_FILE, "nonexistent|\x7b\x7d")]).1 =
      .published "\x7b\"status\": \"error\", \"error\": \"Unknown command: nonexistent\"\x7d" ∧
    writesFinalDirectly (check_command demoRegistry [(CMD_FILE, "nonexistent|\x7b\x7d")]).2.2 = true ∧
    publishViaTemp false (check_command demoRegistry [(CMD_FILE, "nonexistent|\x7b\x7d")]).2.2 = false := by
  decide

/-- C3 amended: in the multi-request bridge, every tick — whatever registry,
mailbox state and claim race — never writes the final response path
directly, and every rename onto it moves the previously written temporary
file; the legacy single-slot bridge instead writes the response directly to
the final path (see the counterexample). -/
theorem c3_amended_publish_via_temp_rename
    (handlers : Handlers) (fs : FS) (stolen : Bool) :
    publishViaTemp false (process_commands handlers fs stolen).trace = true := by
  unfold process_commands
  repeat' (dsimp only; repeat' split)
  all_goals first | rfl | exact publishViaTemp_publishResp _ _


/-- C4 counterexample: the envelope `"\n"` (a one-character string holding
the control character LF) does not round-trip: `json.encode` escapes it to
`"\n"` on the wire, but `parse_str_val` appends the character after a
backslash verbatim, so decoding returns the one-character string `n`. -/
theorem c4_counterex_control_char_roundtrip :
    json_encode (.str ['\n']) false = .ok "\"\\n\"".data ∧
    json_decode_top "\"\\n\"".data = .ok (some (.str ['n']), 5) ∧
    JValue.str ['n'] ≠ JValue.str ['\n'] := by
  refine ⟨?_, by decide, by decide⟩
  simp [json_encode, escape_str, gsubChar, pure, Except.pure]

/-- C5 counterexample: decoding the truncated input `"ab` raises the
`End of input found while parsing string.` error, whose Lua message carries
no byte offset — refuting the claim that every decode failure carries the
byte offset where parsing failed. -/
theorem c5_counterex_error_without_offset :
    json_decode_top "\"ab".data = .error (.parse .eofString) ∧
    errHasPos .eofString = false := by
  decide

/-- C6 (code bug evidence): the claimed payload `42` parses successfully to
a Lua number, and the unguarded `request.cmd` then raises
`attempt to index a number value`, which escapes the watcher tick as an
uncaught error: the claim succeeded (see the trace) but no response is ever
published and the tick does not terminate normally. -/
theorem c6_numeric_payload_uncaught_error :
    (process_commands demoRegistry [(CMD_FILE, "42")] false).outcome =
      .crashedIndex "attempt to index a number value" ∧
    claimed (process_commands demoRegistry [(CMD_FILE, "42")] false).trace = true ∧
    countPublish (process_commands demoRegistry [(CMD_FILE, "42")] false).trace = 0 := by
  decide

/-- C7: dispatching any command name absent from the registry publishes the
error response whose message is exactly `Unknown command: ` followed by the
submitted name, exactly once, and the tick does not crash. -/
theorem c7_unknown_command_error_response
    (handlers : Handlers) (fs : FS) (content : String) (name : String) (kvs : JPairs) (p : Nat)
    (hcmd : fsGet fs CMD_FILE = some content)
    (hne : content ≠ "")
    (hdec : json_decode_top content.data = .ok (some (.table kvs), p))
    (hname : lookupTab (.str "cmd".data) kvs = some (.str name.data))
    (hunknown : handlers name = none) :
    (process_commands handlers fs false).outcome =
      .published (.err ("Unknown command: " ++ name)) ∧
    countPublish (process_commands handlers fs false).trace = 1 := by
  unfold process_commands
  rw [hcmd]
  have hrn : os_rename fs CMD_FILE PROC_FILE =
      (true, fsSet (fsDel fs CMD_FILE) PROC_FILE content) := by
    simp [os_rename, hcmd]
  simp only [if_false, Bool.false_eq_true, ite_false, hrn]
  rw [fsGet_fsSet_self]
  simp only [hne, ite_false, if_false]
  rw [hdec]
  simp only [truthy, Bool.not_true, if_false, Bool.false_eq_true, ite_false]
  simp only [luaIndex, hname]
  rw [hunknown]
  exact publishResp_err_count _ _

/-- C7 witness: the request `{"cmd": "nonexistent_cmd"}` against the
bridge's registry. -/
theorem c7_witness :
    (fsGet [(CMD_FILE, "\x7b\"cmd\": \"nonexistent_cmd\"\x7d")] CMD_FILE =
      some "\x7b\"cmd\": \"nonexistent_cmd\"\x7d") ∧
    demoRegistry "nonexistent_cmd" = none ∧
    ((process_commands demoRegistry [(CMD_FILE, "\x7b\"cmd\": \"nonexistent_cmd\"\x7d")] false).outcome =
      .published (.err ("Unknown command: " ++ "nonexistent_cmd")) ∧
     countPublish (process_commands demoRegistry
       [(CMD_FILE, "\x7b\"cmd\": \"nonexistent_cmd\"\x7d")] false).trace = 1) :=
  ⟨by decide, by simp [demoRegistry, mkRegistry, commandNames],
    c7_unknown_command_error_response demoRegistry
      [(CMD_FILE, "\x7b\"cmd\": \"nonexistent_cmd\"\x7d")]
      "\x7b\"cmd\": \"nonexistent_cmd\"\x7d" "nonexistent_cmd"
      (.cons (.str "cmd".data) (.str "nonexistent_cmd".data) .nil) 27
      (by decide) (by decide) (by decide) (by decide)
      (by simp [demoRegistry, mkRegistry, commandNames])⟩

/-- C8 counterexample: two distinct GUI tool submissions filed in the same
clock second — Auto-Tag and Smart Cull — are written to the *same* mailbox
filename, because the GUI request path is derived from the timestamp alone;
this refutes the claim that every submission's filename carries a
distinguishing suffix so that same-tick requests never collide. -/
theorem c8_counterex_same_tick_collision :
    (⟨"auto_tag_selection", 1700000000⟩ : GuiSubmission) ≠ ⟨"cull_selection", 1700000000⟩ ∧
    GuiSubmission.file ⟨"auto_tag_selection", 1700000000⟩ =
      GuiSubmission.file ⟨"cull_selection", 1700000000⟩ := by
  decide

/-- C8 amended: only the export-storage upload path joins the timestamp with
the image id, and there distinct images filed in the same clock second do
get distinct filenames; the GUI tool requests use the bare timestamp, so any
two GUI submissions in the same clock second collide on the same filename. -/
theorem c8_amended_upload_suffix_distinguishes :
    (∀ t id1 id2 : Nat, id1 ≠ id2 → upload_file t id1 ≠ upload_file t id2) ∧
    (∀ s1 s2 : GuiSubmission, s1.time = s2.time →
      GuiSubmission.file s1 = GuiSubmission.file s2) := by
  constructor
  · intro t id1 id2 h he
    apply h
    have hd := congrArg String.data he
    simp only [upload_file] at hd
    have h1 := List.append_cancel_right hd
    exact decRepr_injective _ _ (List.append_cancel_left h1)
  · intro s1 s2 h
    simp [GuiSubmission.file, gui_request_file, h]

/-- C8 amended witness: same second, distinct image ids; same second,
distinct GUI tools. -/
theorem c8_amended_witness :
    (1 : Nat) ≠ 2 ∧ upload_file 1700000000 1 ≠ upload_file 1700000000 2 ∧
    ((⟨"auto_tag_selection", 77⟩ : GuiSubmission).time =
      (⟨"cull_selection", 77⟩ : GuiSubmission).time) ∧
    GuiSubmission.file ⟨"auto_tag_selection", 77⟩ =
      GuiSubmission.file ⟨"cull_selection", 77⟩ :=
  ⟨by decide, c8_amended_upload_suffix_distinguishes.1 1700000000 1 2 (by decide),
   by decide, c8_amended_upload_suffix_distinguishes.2 _ _ (by decide)⟩

/-- C9 counterexample: `check_status` reads no clock and applies no
staleness window: a status file carrying an arbitrarily old record
(`updated_at` 0) is still reported as its message — the stale message, not
an offline/unavailable state — refuting the claim that a stale status is
reported as `Unavailable`. -/
theorem c9_counterex_stale_status_reported :
    check_status (some "\x7b\"message\": \"Busy: tagging\", \"updated_at\": 0\x7d") =
      .labelSet (.str "Busy: tagging".data) ∧
    StatusOutcome.labelSet (.str "Busy: tagging".data) ≠ .offlineNoStatus := by
  decide

/-- C9 amended: only the complete absence of the status file is reported as
offline: `check_status` then sets the `Server Offline (No Status)` label; a
present file is decoded with no staleness check (and malformed content
raises, see C10). -/
theorem c9_amended_absent_file_reports_offline :
    check_status none = .offlineNoStatus := by
  decide

/-- C10: the status reader decodes the file content with no error guard —
for any present-but-malformed status file the decode error is raised
uncaught inside the UI callback (outcome `raisedParse`), and only the
file's complete absence yields the `Server Offline (No Status)` label. -/
theorem c10_unguarded_status_decode_raises
    (content : String) (e : ParseErr)
    (h : json_decode_top content.data = .error (.parse e)) :
    check_status (some content) = .raisedParse e ∧
    check_status none = .offlineNoStatus := by
  unfold check_status
  dsimp only
  rw [h]
  exact ⟨rfl, rfl⟩

/-- C10 witness: a status file holding `garbage`. -/
theorem c10_witness :
    json_decode_top ("garbage" : String).data = .error (.parse (.invalidSyntax 1)) ∧
    (check_status (some "garbage") = .raisedParse (.invalidSyntax 1) ∧
     check_status none = .offlineNoStatus) :=
  ⟨by decide, c10_unguarded_status_decode_raises "garbage" (.invalidSyntax 1) (by decide)⟩


/-! ## Decoder metatheory: every successful parse consumes input, and the
fuel passed by `json_decode_top` cannot run out. -/

theorem skipWs_sublen (rem : List Char) (p : Nat) :
    (skipWs rem p).1.length ≤ rem.length := by
  induction rem generalizing p with
  | nil => simp [skipWs]
  | cons c rest ih =>
    by_cases h : luaSpace c = true
    · simp only [skipWs, h, if_true]
      have := ih (p + 1)
      simp
      omega
    · simp [skipWs, h]

theorem skip_delim_sublen (rem : List Char) (p : Nat) (d : Char) (b : Bool)
    (rem' : List Char) (p' : Nat) (f : Bool)
    (h : skip_delim rem p d b = .ok (rem', p', f)) : rem'.length ≤ rem.length := by
  unfold skip_delim at h
  have hws := skipWs_sublen rem p
  rcases hsw : skipWs rem p with ⟨rem1, p1⟩
  rw [hsw] at h hws
  simp at hws
  cases rem1 with
  | nil =>
    cases b <;> simp at h
    obtain ⟨h1, _⟩ := h
    subst h1
    simpa using hws
  | cons c rest =>
    simp at hws
    by_cases hc : c = d
    · simp [hc] at h
      obtain ⟨h1, _⟩ := h
      subst h1
      omega
    · simp [hc] at h
      cases b
      · simp at h
        obtain ⟨h1, _⟩ := h
        subst h1
        simp
        omega
      · simp at h

theorem skip_delim_found_sublen (rem : List Char) (p : Nat) (d : Char)
    (rem' : List Char) (p' : Nat) (f : Bool)
    (h : skip_delim rem p d true = .ok (rem', p', f)) : rem'.length < rem.length := by
  unfold skip_delim at h
  have hws := skipWs_sublen rem p
  rcases hsw : skipWs rem p with ⟨rem1, p1⟩
  rw [hsw] at h hws
  simp at hws
  cases rem1 with
  | nil => simp at h
  | cons c rest =>
    simp at hws
    by_cases hc : c = d
    · simp [hc] at h
      obtain ⟨h1, _⟩ := h
      subst h1
      omega
    · simp [hc] at h

theorem parse_str_val_sublen (n : Nat) :
    ∀ (rem : List Char), rem.length ≤ n → ∀ (p : Nat) (v r : List Char) (p2 : Nat),
      parse_str_val rem p = .ok (v, r, p2) → r.length < rem.length := by
  induction n with
  | zero =>
    intro rem hlen p v r p2 h
    have : rem = [] := List.length_eq_zero.mp (by omega)
    subst this
    simp [parse_str_val] at h
  | succ n ih =>
    intro rem hlen p v r p2 h
    cases rem with
    | nil => simp [parse_str_val] at h
    | cons c rest =>
      by_cases hq : c = '"'
      · subst hq
        simp [parse_str_val] at h
        obtain ⟨_, h2, _⟩ := h
        subst h2
        simp
      · by_cases hb : c = '\\'
        · subst hb
          cases rest with
          | nil => simp [parse_str_val] at h
          | cons c2 rest2 =>
            simp only [parse_str_val] at h
            rcases hrec : parse_str_val rest2 (p + 2) with e | ⟨v2, r2, p3⟩
            · rw [hrec] at h
              simp at h
            · rw [hrec] at h
              simp at h
              obtain ⟨_, h2, _⟩ := h
              subst h2
              have := ih rest2 (by simp at hlen; omega) (p + 2) v2 r2 p3 hrec
              simp
              omega
        · simp only [parse_str_val, hq, hb] at h
          rcases hrec : parse_str_val rest (p + 1) with e | ⟨v2, r2, p3⟩
          · rw [hrec] at h
            simp at h
          · rw [hrec] at h
            simp at h
            obtain ⟨_, h2, _⟩ := h
            subst h2
            have := ih rest (by simp at hlen; omega) (p + 1) v2 r2 p3 hrec
            simp
            omega

theorem takeDigits_append (s : List Char) :
    (takeDigits s).1 ++ (takeDigits s).2 = s := by
  induction s with
  | nil => simp [takeDigits]
  | cons c rest ih =>
    by_cases h : c.isDigit
    · simp [takeDigits, h, ih]
    · simp [takeDigits, h]

theorem takeDigits_sublen (s : List Char) : (takeDigits s).2.length ≤ s.length := by
  have := takeDigits_append s
  have h2 := congrArg List.length this
  simp at h2
  omega

theorem takeDigits_cons_sublen (s : List Char) (d : Char) (ds r : List Char)
    (h : takeDigits s = (d :: ds, r)) : r.length < s.length := by
  have := takeDigits_append s
  rw [h] at this
  have h2 := congrArg List.length this
  simp at h2
  omega

theorem optPrefix_sublen (t : Char → Bool) (s : List Char) :
    (optPrefix t s).2.length ≤ s.length := by
  cases s with
  | nil => simp [optPrefix]
  | cons c r =>
    by_cases h : t c = true
    · simp [optPrefix, h]
    · simp [optPrefix, h]

theorem optSign_sublen (s : List Char) : (optSign s).2.length ≤ s.length := by
  cases s with
  | nil => simp [optSign]
  | cons c r =>
    by_cases h : (c = '+' || c = '-') = true
    · simp [optSign, h]
    · simp [optSign, h]

theorem matchNumeral_sublen (rem : List Char) (n : Numeral) (rest : List Char)
    (h : matchNumeral rem = some (n, rest)) : rest.length < rem.length := by
  simp only [matchNumeral] at h
  have h1 := optPrefix_sublen (fun c => c = '-') rem
  rcases ht1 : takeDigits (optPrefix (fun c => c = '-') rem).2 with ⟨ds0, r2⟩
  rw [ht1] at h
  cases ds0 with
  | nil => simp at h
  | cons d ds =>
    have h2 : r2.length < rem.length := by
      have := takeDigits_cons_sublen _ d ds r2 ht1
      omega
    simp only at h
    have h3 := optPrefix_sublen (fun c => c = '.') r2
    rcases ht2 : takeDigits (optPrefix (fun c => c = '.') r2).2 with ⟨frac, r4⟩
    rw [ht2] at h
    have h4 : r4.length ≤ r2.length := by
      have := takeDigits_sublen (optPrefix (fun c => c = '.') r2).2
      rw [ht2] at this
      simp at this
      omega
    simp only at h
    have h5 := optPrefix_sublen (fun c => c = 'e' || c = 'E') r4
    have h6 := optSign_sublen (optPrefix (fun c => c = 'e' || c = 'E') r4).2
    rcases ht3 : takeDigits (optSign (optPrefix (fun c => c = 'e' || c = 'E') r4).2).2
      with ⟨eds, r7⟩
    rw [ht3] at h
    have h7 : r7.length ≤ (optSign (optPrefix (fun c => c = 'e' || c = 'E') r4).2).2.length := by
      have := takeDigits_sublen (optSign (optPrefix (fun c => c = 'e' || c = 'E') r4).2).2
      rw [ht3] at this
      simpa using this
    simp at h
    obtain ⟨_, h8⟩ := h
    subst h8
    omega

theorem parse_num_val_sublen (rem : List Char) (pos : Nat) (v : JValue)
    (r : List Char) (p2 : Nat)
    (h : parse_num_val rem pos = .ok (v, r, p2)) : r.length < rem.length := by
  unfold parse_num_val at h
  rcases hm : matchNumeral rem with _ | ⟨nm, rest⟩
  · rw [hm] at h
    simp at h
  · rw [hm] at h
    by_cases hok : numeralOk nm = true
    · simp [hok] at h
      obtain ⟨_, h2, _⟩ := h
      subst h2
      exact matchNumeral_sublen rem nm _ hm
    · simp [hok] at h

theorem decode_consumes (fuel : Nat) :
    (∀ rem pos d res, json_decode fuel rem pos d = .ok res → res.2.1.length < rem.length) ∧
    (∀ obj df rem pos res, json_decode_obj fuel obj df rem pos = .ok res →
      res.2.1.length ≤ rem.length) ∧
    (∀ arr len df rem pos res, json_decode_arr fuel arr len df rem pos = .ok res →
      res.2.1.length ≤ rem.length) := by
  induction fuel with
  | zero =>
    refine ⟨?_, ?_, ?_⟩ <;> intros <;> rename_i h <;>
      simp [json_decode, json_decode_obj, json_decode_arr] at h
  | succ fuel ih =>
    obtain ⟨ihv, iho, iha⟩ := ih
    refine ⟨?_, ?_, ?_⟩
    · intro rem pos d res h
      simp only [json_decode] at h
      cases rem with
      | nil => simp at h
      | cons c rest =>
        have hws := skipWs_sublen (c :: rest) pos
        rcases hsw : skipWs (c :: rest) pos with ⟨rem1, p1⟩
        rw [hsw] at h hws
        simp only at h hws
        cases rem1 with
        | nil => simp at h
        | cons c1 rest1 =>
          simp only [List.length_cons] at hws
          by_cases h1 : c1 = '{'
          · subst h1
            simp at h
            have := iho .nil true rest1 (p1 + 1) res h
            simp
            omega
          · by_cases h2 : c1 = '['
            · subst h2
              simp [h1] at h
              have := iha .nil 0 true rest1 (p1 + 1) res h
              simp
              omega
            · by_cases h3 : c1 = '"'
              · subst h3
                simp [h1, h2] at h
                rcases hps : parse_str_val rest1 (p1 + 1) with e | ⟨v2, r2, p3⟩
                · rw [hps] at h
                  simp at h
                · rw [hps] at h
                  have := parse_str_val_sublen rest1.length rest1 (by omega) (p1 + 1) v2 r2 p3 hps
                  injection h with h
                  subst h
                  simp
                  omega
              · simp only [h1, h2, h3, if_false] at h
                by_cases h4 : (c1 = '-' || c1.isDigit) = true
                · simp only [h4, if_true] at h
                  rcases hpn : parse_num_val (c1 :: rest1) p1 with e | ⟨v2, r2, p3⟩
                  · rw [hpn] at h
                    simp at h
                  · rw [hpn] at h
                    have := parse_num_val_sublen (c1 :: rest1) p1 v2 r2 p3 hpn
                    injection h with h
                    subst h
                    simp at this ⊢
                    omega
                · simp only [h4, Bool.false_eq_true, if_false] at h
                  by_cases h5 : d = some c1
                  · simp only [h5, if_true, ite_true] at h
                    injection h with h
                    subst h
                    simp
                    omega
                  · simp only [h5, if_false, ite_false] at h
                    split at h
                    · rename_i h6
                      have hlen := congrArg List.length h6
                      simp [List.length_take] at hlen
                      injection h with h
                      subst h
                      simp [List.length_drop, List.length_cons]
                      omega
                    · split at h
                      · rename_i h7
                        have hlen := congrArg List.length h7
                        simp [List.length_take] at hlen
                        injection h with h
                        subst h
                        simp [List.length_drop, List.length_cons]
                        omega
                      · simp at h
    · intro obj df rem pos res h
      simp only [json_decode_obj] at h
      rcases hk : json_decode fuel rem pos (some '}') with e | ⟨keyOpt, rem1, p1⟩
      · rw [hk] at h
        simp at h
      · rw [hk] at h
        have hkl := ihv rem pos (some '}') (keyOpt, rem1, p1) hk
        simp only at hkl
        cases keyOpt with
        | none =>
          injection h with h
          subst h
          simp
          omega
        | some key =>
          simp only at h
          by_cases hdf : (!df) = true
          · simp [hdf] at h
          · simp only [hdf, Bool.false_eq_true, if_false] at h
            rcases hsd : skip_delim rem1 p1 ':' true with e | ⟨rem2, p2, f2⟩
            · rw [hsd] at h
              simp at h
            · rw [hsd] at h
              simp only at h
              have hsd2 := skip_delim_found_sublen rem1 p1 ':' rem2 p2 f2 hsd
              rcases hv : json_decode fuel rem2 p2 none with e | ⟨valOpt, rem3, p3⟩
              · rw [hv] at h
                simp at h
              · rw [hv] at h
                simp only at h
                have hvl := ihv rem2 p2 none (valOpt, rem3, p3) hv
                simp only at hvl
                rcases hsc : skip_delim rem3 p3 ',' false with e | ⟨rem4, p4, df2⟩
                · rw [hsc] at h
                  simp at h
                · rw [hsc] at h
                  simp only at h
                  have hscl := skip_delim_sublen rem3 p3 ',' false rem4 p4 df2 hsc
                  have := iho (setTab key valOpt obj) df2 rem4 p4 res h
                  omega
    · intro arr len df rem pos res h
      simp only [json_decode_arr] at h
      rcases hk : json_decode fuel rem pos (some ']') with e | ⟨valOpt, rem1, p1⟩
      · rw [hk] at h
        simp at h
      · rw [hk] at h
        have hkl := ihv rem pos (some ']') (valOpt, rem1, p1) hk
        simp only at hkl
        cases valOpt with
        | none =>
          injection h with h
          subst h
          simp
          omega
        | some v =>
          simp only at h
          by_cases hdf : (!df) = true
          · simp [hdf] at h
          · simp only [hdf, Bool.false_eq_true, if_false] at h
            rcases hsc : skip_delim rem1 p1 ',' false with e | ⟨rem2, p2, df2⟩
            · rw [hsc] at h
              simp at h
            · rw [hsc] at h
              simp only at h
              have hscl := skip_delim_sublen rem1 p1 ',' false rem2 p2 df2 hsc
              have := iha (setTab (.num (len + 1)) (some v) arr) (len + 1) df2 rem2 p2 res h
              omega

theorem decode_no_fuel (fuel : Nat) :
    (∀ rem pos d, 2 * rem.length + 1 ≤ fuel → json_decode fuel rem pos d ≠ .error .fuelOut) ∧
    (∀ obj df rem pos, 2 * rem.length + 2 ≤ fuel →
      json_decode_obj fuel obj df rem pos ≠ .error .fuelOut) ∧
    (∀ arr len df rem pos, 2 * rem.length + 2 ≤ fuel →
      json_decode_arr fuel arr len df rem pos ≠ .error .fuelOut) := by
  induction fuel with
  | zero =>
    refine ⟨?_, ?_, ?_⟩ <;> intros <;> omega
  | succ fuel ih =>
    obtain ⟨ihv, iho, iha⟩ := ih
    refine ⟨?_, ?_, ?_⟩
    · intro rem pos d hb
      simp only [json_decode]
      cases rem with
      | nil => simp
      | cons c rest =>
        have hws := skipWs_sublen (c :: rest) pos
        rcases hsw : skipWs (c :: rest) pos with ⟨rem1, p1⟩
        rw [hsw] at hws
        simp only at hws
        simp only [List.length_cons] at hb hws
        cases rem1 with
        | nil => simp
        | cons c1 rest1 =>
          simp only [List.length_cons] at hws
          by_cases h1 : c1 = '{'
          · subst h1
            simp only [if_true, ite_true]
            exact iho .nil true rest1 (p1 + 1) (by omega)
          · by_cases h2 : c1 = '['
            · subst h2
              simp only [h1, if_false, ite_false, if_true, ite_true]
              exact iha .nil 0 true rest1 (p1 + 1) (by omega)
            · by_cases h3 : c1 = '"'
              · subst h3
                simp only [h1, h2, if_false, ite_false, if_true, ite_true]
                cases parse_str_val rest1 (p1 + 1) with
                | ok r => simp
                | error e => simp
              · simp only [h1, h2, h3, if_false, ite_false]
                by_cases h4 : (c1 = '-' || c1.isDigit) = true
                · simp only [h4, if_true, ite_true]
                  cases parse_num_val (c1 :: rest1) p1 with
                  | ok r => simp
                  | error e => simp
                · simp only [h4, Bool.false_eq_true, if_false, ite_false]
                  by_cases h5 : d = some c1
                  · simp [h5]
                  · simp only [h5, if_false, ite_false]
                    split
                    · simp
                    · split
                      · simp
                      · simp
    · intro obj df rem pos hb
      simp only [json_decode_obj]
      rcases hk : json_decode fuel rem pos (some '}') with e | ⟨keyOpt, rem1, p1⟩
      · have := ihv rem pos (some '}') (by omega)
        rw [hk] at this
        dsimp only
        intro hc
        injection hc with hc
        subst hc
        exact this rfl
      · have hkl := (decode_consumes fuel).1 rem pos (some '}') (keyOpt, rem1, p1) hk
        simp only at hkl
        dsimp only
        cases keyOpt with
        | none => simp
        | some key =>
          simp only
          by_cases hdf : (!df) = true
          · simp [hdf]
          · simp only [hdf, Bool.false_eq_true, if_false, ite_false]
            rcases hsd : skip_delim rem1 p1 ':' true with e | ⟨rem2, p2, f2⟩
            · dsimp only
              simp
            · dsimp only
              have hsd2 := skip_delim_found_sublen rem1 p1 ':' rem2 p2 f2 hsd
              rcases hv : json_decode fuel rem2 p2 none with e | ⟨valOpt, rem3, p3⟩
              · have := ihv rem2 p2 none (by omega)
                rw [hv] at this
                dsimp only
                intro hc
                injection hc with hc
                subst hc
                exact this rfl
              · have hvl := (decode_consumes fuel).1 rem2 p2 none (valOpt, rem3, p3) hv
                simp only at hvl
                dsimp only
                rcases hsc : skip_delim rem3 p3 ',' false with e | ⟨rem4, p4, df2⟩
                · dsimp only
                  simp
                · dsimp only
                  have hscl := skip_delim_sublen rem3 p3 ',' false rem4 p4 df2 hsc
                  exact iho (setTab key valOpt obj) df2 rem4 p4 (by omega)
    · intro arr len df rem pos hb
      simp only [json_decode_arr]
      rcases hk : json_decode fuel rem pos (some ']') with e | ⟨valOpt, rem1, p1⟩
      · have := ihv rem pos (some ']') (by omega)
        rw [hk] at this
        dsimp only
        intro hc
        injection hc with hc
        subst hc
        exact this rfl
      · have hkl := (decode_consumes fuel).1 rem pos (some ']') (valOpt, rem1, p1) hk
        simp only at hkl
        dsimp only
        cases valOpt with
        | none => simp
        | some v =>
          simp only
          by_cases hdf : (!df) = true
          · simp [hdf]
          · simp only [hdf, Bool.false_eq_true, if_false, ite_false]
            rcases hsc : skip_delim rem1 p1 ',' false with e | ⟨rem2, p2, df2⟩
            · dsimp only
              simp
            · dsimp only
              have hscl := skip_delim_sublen rem1 p1 ',' false rem2 p2 df2 hsc
              exact iha (setTab (.num (len + 1)) (some v) arr) (len + 1) df2 rem2 p2 (by omega)

/-- The fuel passed by the top-level decode entry can never run out. -/
theorem json_decode_top_no_fuel (s : List Char) :
    json_decode_top s ≠ .error .fuelOut := by
  unfold json_decode_top
  have h := (decode_no_fuel (decodeFuel s)).1 s 1 none (by unfold decodeFuel; omega)
  rcases hd : json_decode (decodeFuel s) s 1 none with e | ⟨v, r, p⟩
  · rw [hd] at h
    cases e with
    | parse e2 => simp
    | fuelOut => exact absurd rfl h
  · simp

/-- Distinguishes the decoder step-bound marker from every real outcome. -/
def isFuelErr {a : Type} : Except PErr a → Bool
  | .error .fuelOut => true
  | _ => false

/-- C5 amended: decoding is total — for every input string the decoder
terminates with either a value or one of the fixed structured parse errors;
the step bound passed by the top-level entry is proven sufficient, so the
distinguished exhaustion marker is never the result (and the structured
errors are all caught by the `pcall` at the watcher boundary; only some of
them carry the failing byte offset, see the counterexample). -/
theorem c5_amended_decode_total_structured (s : List Char) :
    isFuelErr (json_decode_top s) = false := by
  have h := json_decode_top_no_fuel s
  rcases hd : json_decode_top s with e | v
  · rw [hd] at h
    cases e with
    | parse e2 => simp [isFuelErr]
    | fuelOut => exact absurd rfl h
  · simp [isFuelErr]

/-- Whether a claimed payload makes the tick crash on the unguarded
`request.cmd`: it decodes to a truthy non-table, non-string Lua value
(a number, or boolean `true`). -/
def crashingPayload (content : String) : Bool :=
  match json_decode_top content.data with
  | .ok (some (.num _), _) => true
  | .ok (some (.bool true), _) => true
  | _ => false

/-- C2 amended: a tick over a claimed request with nonempty payload
publishes exactly one response — whether the payload fails to parse, names
an unknown command, or the handler succeeds or fails — provided the payload
does not decode to a truthy non-table value (which crashes the unguarded
`request.cmd`, see C6) and the dispatched handler result serialises. -/
theorem c2_amended_nonempty_wellformed_publishes_once
    (handlers : Handlers) (fs : FS) (content : String)
    (h1 : fsGet fs CMD_FILE = some content)
    (h2 : content ≠ "")
    (h3 : crashingPayload content = false)
    (h4 : ∀ (name : String) (hf : JValue → Except String JValue) (a r : JValue),
      handlers name = some hf → hf a = .ok r →
      ∃ s, json_encode (respTable (.ok r)) false = .ok s) :
    (∃ resp, (process_commands handlers fs false).outcome = .published resp) ∧
    countPublish (process_commands handlers fs false).trace = 1 := by
  unfold process_commands
  rw [h1]
  have hrn : os_rename fs CMD_FILE PROC_FILE =
      (true, fsSet (fsDel fs CMD_FILE) PROC_FILE content) := by
    simp [os_rename, h1]
  simp only [if_false, Bool.false_eq_true, ite_false, hrn]
  rw [fsGet_fsSet_self]
  simp only [h2, ite_false, if_false]
  rcases hd : json_decode_top content.data with e | ⟨vOpt, p⟩
  · cases e with
    | fuelOut => exact absurd hd (json_decode_top_no_fuel content.data)
    | parse e2 =>
      obtain ⟨ho, hc⟩ := publishResp_err_count (fsSet (fsDel fs CMD_FILE) PROC_FILE content)
        ("JSON parse error: " ++ errText e2)
      exact ⟨⟨_, ho⟩, hc⟩
  · try dsimp only
    cases vOpt with
    | none =>
      obtain ⟨ho, hc⟩ := publishResp_err_count (fsSet (fsDel fs CMD_FILE) PROC_FILE content)
        "JSON parse error: nil"
      exact ⟨⟨_, ho⟩, hc⟩
    | some v =>
      by_cases ht : truthy v = true
      · simp only [ht, Bool.not_true, Bool.false_eq_true, if_false, ite_false]
        cases v with
        | null => simp [truthy] at ht
        | bool b =>
          cases b with
          | false => simp [truthy] at ht
          | true =>
            exfalso
            unfold crashingPayload at h3
            rw [hd] at h3
            simp at h3
        | num n =>
          exfalso
          unfold crashingPayload at h3
          rw [hd] at h3
          simp at h3
        | str s =>
          simp only [luaIndex]
          obtain ⟨ho, hc⟩ := publishResp_err_count (fsSet (fsDel fs CMD_FILE) PROC_FILE content)
            ("Unknown command: " ++ luaTostring none)
          exact ⟨⟨_, ho⟩, hc⟩
        | table kvs =>
          simp only [luaIndex]
          rcases hcmd : lookupTab (.str "cmd".data) kvs with _ | key
          · try dsimp only
            obtain ⟨ho, hc⟩ := publishResp_err_count (fsSet (fsDel fs CMD_FILE) PROC_FILE content)
              ("Unknown command: " ++ luaTostring none)
            exact ⟨⟨_, ho⟩, hc⟩
          · try dsimp only
            cases key with
            | str name =>
              try dsimp only
              rcases hh : handlers (String.mk name) with _ | hf
              · try dsimp only
                obtain ⟨ho, hc⟩ := publishResp_err_count (fsSet (fsDel fs CMD_FILE) PROC_FILE content)
                  ("Unknown command: " ++ String.mk name)
                exact ⟨⟨_, ho⟩, hc⟩
              · try dsimp only
                rcases hr : hf (match lookupTab (.str "args".data) kvs with
                    | some a => if truthy a = true then a else .table .nil
                    | none => .table .nil) with m | r
                · try dsimp only
                  obtain ⟨ho, hc⟩ := publishResp_err_count
                    (fsSet (fsDel fs CMD_FILE) PROC_FILE content) m
                  exact ⟨⟨_, ho⟩, hc⟩
                · try dsimp only
                  obtain ⟨s, hs⟩ := h4 (String.mk name) hf _ r hh hr
                  obtain ⟨ho, hc⟩ := publishResp_ok_count
                    (fsSet (fsDel fs CMD_FILE) PROC_FILE content) (.ok r) s hs
                  exact ⟨⟨_, ho⟩, hc⟩
            | null =>
              try dsimp only
              obtain ⟨ho, hc⟩ := publishResp_err_count (fsSet (fsDel fs CMD_FILE) PROC_FILE content)
                ("Unknown command: " ++ luaTostring (some .null))
              exact ⟨⟨_, ho⟩, hc⟩
            | bool b =>
              try dsimp only
              obtain ⟨ho, hc⟩ := publishResp_err_count (fsSet (fsDel fs CMD_FILE) PROC_FILE content)
                ("Unknown command: " ++ luaTostring (some (.bool b)))
              exact ⟨⟨_, ho⟩, hc⟩
            | num n =>
              try dsimp only
              obtain ⟨ho, hc⟩ := publishResp_err_count (fsSet (fsDel fs CMD_FILE) PROC_FILE content)
                ("Unknown command: " ++ luaTostring (some (.num n)))
              exact ⟨⟨_, ho⟩, hc⟩
            | table kvs2 =>
              try dsimp only
              obtain ⟨ho, hc⟩ := publishResp_err_count (fsSet (fsDel fs CMD_FILE) PROC_FILE content)
                ("Unknown command: " ++ luaTostring (some (.table kvs2)))
              exact ⟨⟨_, ho⟩, hc⟩
      · simp only [Bool.not_eq_true] at ht
        simp only [ht]
        try dsimp only
        obtain ⟨ho, hc⟩ := publishResp_err_count (fsSet (fsDel fs CMD_FILE) PROC_FILE content)
          ("JSON parse error: " ++ luaTostring (some v))
        exact ⟨⟨_, ho⟩, hc⟩

/-- C2 amended witness: the request `{"cmd": "get_selection"}` against a
concrete registry whose handlers return `nil`. -/
theorem c2_amended_witness :
    (fsGet [(CMD_FILE, "\x7b\"cmd\": \"get_selection\"\x7d")] CMD_FILE =
      some "\x7b\"cmd\": \"get_selection\"\x7d") ∧
    ("\x7b\"cmd\": \"get_selection\"\x7d" : String) ≠ "" ∧
    crashingPayload "\x7b\"cmd\": \"get_selection\"\x7d" = false ∧
    ((∃ resp, (process_commands demoRegistry
        [(CMD_FILE, "\x7b\"cmd\": \"get_selection\"\x7d")] false).outcome = .published resp) ∧
     countPublish (process_commands demoRegistry
        [(CMD_FILE, "\x7b\"cmd\": \"get_selection\"\x7d")] false).trace = 1) :=
  ⟨by decide, by decide, by decide,
    c2_amended_nonempty_wellformed_publishes_once demoRegistry
      [(CMD_FILE, "\x7b\"cmd\": \"get_selection\"\x7d")]
      "\x7b\"cmd\": \"get_selection\"\x7d"
      (by decide) (by decide) (by decide)
      (by
        intro name hf a r hh hr
        unfold demoRegistry mkRegistry at hh
        by_cases hm : name ∈ commandNames
        · simp only [hm, if_true, ite_true, Option.some.injEq] at hh
          rw [← hh] at hr
          simp only [Except.ok.injEq] at hr
          subst hr
          refine ⟨"\x7b\"status\":\"ok\"\x7d".data, ?_⟩
          simp [respTable, json_encode, kind_of, plen, seqKeys, encPairs, lookupTab,
            escape_str, gsubChar, Except.bind, List.range, List.range.loop, bind,
            pure, Except.pure]
        · simp [hm] at hh)⟩


/-! ## Round-trip development: characterizing decode on encoder output -/

theorem parse_str_val_plain (c : Char) (l : List Char) (p : Nat)
    (h2 : c ≠ '"') (h1 : c ≠ '\\') :
    parse_str_val (c :: l) p =
      match parse_str_val l (p + 1) with
      | .ok (v, r, p2) => .ok (c :: v, r, p2)
      | .error e => .error e := by
  rw [parse_str_val]
  · exact h2
  · exact h1

/-- Characters whose escaping round-trips: everything except the five
control characters that `escape_str` rewrites to a bare letter. -/
def goodChar (c : Char) : Bool :=
  !(c = '\x08' || c = '\x0c' || c = '\n' || c = '\r' || c = '\t')

mutual
/-- Envelope values for which the round-trip is claimed: no `null`, strings
of `goodChar`s, and tables that are either index-ordered sequences or
string-keyed mappings without repeated keys. -/
def goodVal : JValue → Bool
  | .null => false
  | .bool _ => true
  | .num _ => true
  | .str s => s.all goodChar
  | .table kvs => goodSeqFrom 1 kvs || goodMapP kvs
/-- The entries are exactly `(i, v_i), (i+1, v_NEXT), ...` in order. -/
def goodSeqFrom (i : Nat) : JPairs → Bool
  | .nil => true
  | .cons k v r => (k = JValue.num (i : Int)) && goodVal v && goodSeqFrom (i + 1) r
/-- String keys of good characters, no key repeated, good values. -/
def goodMapP : JPairs → Bool
  | .nil => true
  | .cons k v r =>
    (match k with
     | .str s => s.all goodChar
     | _ => false) && goodVal v && (lookupTab k r).isNone && goodMapP r
end

theorem gsubChar_append (pat : Char) (rep : List Char) (a b : List Char) :
    gsubChar pat rep (a ++ b) = gsubChar pat rep a ++ gsubChar pat rep b := by
  induction a with
  | nil => simp [gsubChar]
  | cons c rest ih => simp [gsubChar, ih]

theorem escape_str_append (a b : List Char) :
    escape_str (a ++ b) = escape_str a ++ escape_str b := by
  simp [escape_str, gsubChar_append]

theorem escape_str_cons (c : Char) (s : List Char) :
    escape_str (c :: s) = escape_str [c] ++ escape_str s := by
  have h : (c :: s) = [c] ++ s := rfl
  rw [h, escape_str_append]

/-- A good character other than the three escaped-and-restored ones is left
alone by all eight passes. -/
theorem escape_str_id (c : Char) (h1 : c ≠ '\\') (h2 : c ≠ '"') (h3 : c ≠ '/')
    (hg : goodChar c = true) : escape_str [c] = [c] := by
  simp only [goodChar, Bool.not_eq_true', Bool.or_eq_false_iff, decide_eq_false_iff_not] at hg
  obtain ⟨⟨⟨⟨g1, g2⟩, g3⟩, g4⟩, g5⟩ := hg
  simp [escape_str, gsubChar, h1, h2, h3, g1, g2, g3, g4, g5]

/-- Unescaping: `parse_str_val` undoes `escape_str` on good characters, leaving exactly
the continuation after the closing quote. -/
theorem parse_str_val_escape (s : List Char) (hs : s.all goodChar = true) :
    ∀ (rest : List Char) (p : Nat),
      ∃ p2, parse_str_val (escape_str s ++ '"' :: rest) p = .ok (s, rest, p2) := by
  induction s with
  | nil =>
    intro rest p
    refine ⟨p + 1, ?_⟩
    have he : escape_str [] = [] := by decide
    rw [he]
    simp [parse_str_val]
  | cons c s ih =>
    intro rest p
    simp only [List.all_cons, Bool.and_eq_true] at hs
    obtain ⟨hc, hs2⟩ := hs
    rw [escape_str_cons]
    by_cases h1 : c = '\\'
    · subst h1
      have he : escape_str ['\\'] = ['\\', '\\'] := by decide
      rw [he]
      obtain ⟨p2, hp⟩ := ih hs2 rest (p + 2)
      refine ⟨p2, ?_⟩
      simp only [List.cons_append, List.nil_append, List.append_eq, List.nil_append, parse_str_val]
      rw [hp]
    · by_cases h2 : c = '"'
      · subst h2
        have he : escape_str ['"'] = ['\\', '"'] := by decide
        rw [he]
        obtain ⟨p2, hp⟩ := ih hs2 rest (p + 2)
        refine ⟨p2, ?_⟩
        simp only [List.cons_append, List.nil_append, List.append_eq, List.nil_append, parse_str_val]
        rw [hp]
      · by_cases h3 : c = '/'
        · subst h3
          have he : escape_str ['/'] = ['\\', '/'] := by decide
          rw [he]
          obtain ⟨p2, hp⟩ := ih hs2 rest (p + 2)
          refine ⟨p2, ?_⟩
          simp only [List.cons_append, List.nil_append, List.append_eq, List.nil_append, parse_str_val]
          rw [hp]
        · rw [escape_str_id c h1 h2 h3 hc]
          obtain ⟨p2, hp⟩ := ih hs2 rest (p + 1)
          refine ⟨p2, ?_⟩
          simp only [List.cons_append, List.nil_append]
          rw [parse_str_val_plain c _ _ h2 h1]
          rw [hp]

/-- The continuation after an encoded number in well-formed input: empty, or
starting with a character that no element of the numeral pattern consumes. -/
def numStop : List Char → Bool
  | [] => true
  | c :: _ => !(c.isDigit || c = '.' || c = 'e' || c = 'E' || c = '+' || c = '-')

theorem digit_ne (c : Char) (h : c.isDigit = true) :
    c ≠ '{' ∧ c ≠ '[' ∧ c ≠ '"' ∧ c ≠ '}' ∧ c ≠ ']' ∧ c ≠ '-' ∧ c ≠ ',' := by
  refine ⟨?_, ?_, ?_, ?_, ?_, ?_, ?_⟩ <;> intro heq <;> subst heq <;> exact absurd h (by decide)

theorem digit_not_space (c : Char) (h : c.isDigit = true) : luaSpace c = false := by
  rcases hc : luaSpace c with _ | _
  · rfl
  · exfalso
    simp only [luaSpace, Bool.or_eq_true, decide_eq_true_eq] at hc
    rcases hc with ((((h1 | h1) | h1) | h1) | h1) | h1 <;> subst h1 <;> exact absurd h (by decide)

theorem optPrefix_none (test : Char → Bool) (s : List Char)
    (h : s = [] ∨ ∀ c t, s = c :: t → test c = false) : optPrefix test s = (false, s) := by
  rcases s with _ | ⟨c, t⟩
  · rfl
  · rcases h with h | h
    · exact absurd h (by simp)
    · simp [optPrefix, h c t rfl]

theorem optSign_none (s : List Char)
    (h : s = [] ∨ ∀ c t, s = c :: t → (c = '+' ∨ c = '-') → False) : optSign s = (none, s) := by
  rcases s with _ | ⟨c, t⟩
  · rfl
  · rcases h with h | h
    · exact absurd h (by simp)
    · have h1 : (c = '+' || c = '-') = false := by
        rcases hc : (c = '+' || c = '-') with _ | _
        · rfl
        · simp only [Bool.or_eq_true, decide_eq_true_eq] at hc
          exact absurd (h c t rfl hc) (fun f => f)
      simp [optSign, h1]

theorem takeDigits_none (s : List Char)
    (h : s = [] ∨ ∀ c t, s = c :: t → c.isDigit = false) : takeDigits s = ([], s) := by
  rcases s with _ | ⟨c, t⟩
  · rfl
  · rcases h with h | h
    · exact absurd h (by simp)
    · simp [takeDigits, h c t rfl]

theorem takeDigits_exact (ds : List Char) (hd : ∀ c ∈ ds, c.isDigit = true)
    (rest : List Char) (h : rest = [] ∨ ∀ c t, rest = c :: t → c.isDigit = false) :
    takeDigits (ds ++ rest) = (ds, rest) := by
  induction ds with
  | nil => simpa using takeDigits_none rest h
  | cons c t ih =>
    have hc : c.isDigit = true := hd c (by simp)
    have ht : ∀ x ∈ t, x.isDigit = true := fun x hx => hd x (by simp [hx])
    simp [List.cons_append, takeDigits, hc, ih ht, List.append_eq]

theorem decReprAux_digits (fuel n : Nat) : ∀ c ∈ decReprAux fuel n, c.isDigit = true := by
  induction fuel generalizing n with
  | zero => simp [decReprAux]
  | succ fuel ih =>
    intro c hc
    rw [decReprAux] at hc
    by_cases h10 : n < 10
    · simp only [h10, if_true, List.mem_singleton] at hc
      subst hc
      have : (digitChar n).toNat = 48 + n := digitChar_toNat n h10
      interval_cases n <;> decide
    · simp only [h10, if_false, List.mem_append, List.mem_singleton] at hc
      rcases hc with hc | hc
      · exact ih (n / 10) c hc
      · subst hc
        have hm : n % 10 < 10 := Nat.mod_lt _ (by omega)
        have : (digitChar (n % 10)).toNat = 48 + n % 10 := digitChar_toNat _ hm
        interval_cases h : n % 10 <;> simp_all <;> decide

theorem decRepr_digits (n : Nat) : ∀ c ∈ decRepr n, c.isDigit = true :=
  decReprAux_digits (n + 1) n

theorem decRepr_ne_nil (n : Nat) : decRepr n ≠ [] := by
  rw [decRepr, decReprAux]
  by_cases h10 : n < 10 <;> simp [h10]

/-- The head-stop facts `matchNumeral` needs about a `numStop` continuation. -/
theorem numStop_facts (rest : List Char) (h : numStop rest = true) :
    (rest = [] ∨ ∀ c t, rest = c :: t → c.isDigit = false) ∧
    (rest = [] ∨ ∀ c t, rest = c :: t → decide (c = '.') = false) ∧
    (rest = [] ∨ ∀ c t, rest = c :: t → (c = 'e' || c = 'E') = false) ∧
    (rest = [] ∨ ∀ c t, rest = c :: t → (c = '+' ∨ c = '-') → False) := by
  rcases rest with _ | ⟨c, t⟩
  · simp
  · simp only [numStop, Bool.not_eq_true', Bool.or_eq_false_iff, decide_eq_false_iff_not] at h
    obtain ⟨⟨⟨⟨⟨h1, h2⟩, h3⟩, h4⟩, h5⟩, h6⟩ := h
    refine ⟨.inr ?_, .inr ?_, .inr ?_, .inr ?_⟩ <;> intro c2 t2 heq <;>
      rw [List.cons.injEq] at heq <;> obtain ⟨hc, _⟩ := heq <;> subst hc
    · exact h1
    · simp [h2]
    · simp [h3, h4]
    · intro hpm
      rcases hpm with hpm | hpm
      · exact h5 hpm
      · exact h6 hpm

theorem matchNumeral_digits (ds : List Char) (hne : ds ≠ [])
    (hd : ∀ c ∈ ds, c.isDigit = true) (rest : List Char) (hstop : numStop rest = true) :
    matchNumeral (ds ++ rest) =
      some ({ sign := false, ds := ds, dot := false, frac := [],
              hasE := false, esign := none, eds := [] }, rest) := by
  obtain ⟨hs1, hs2, hs3, hs4⟩ := numStop_facts rest hstop
  have hdot : optPrefix (fun c => c = '.') rest = (false, rest) := by
    apply optPrefix_none
    rcases hs2 with h | h
    · exact .inl h
    · exact .inr h
  have hE : optPrefix (fun c => c = 'e' || c = 'E') rest = (false, rest) := by
    apply optPrefix_none
    rcases hs3 with h | h
    · exact .inl h
    · exact .inr h
  have htake0 : takeDigits rest = ([], rest) := takeDigits_none rest hs1
  have hsign : optSign rest = (none, rest) := optSign_none rest hs4
  rcases ds with _ | ⟨d, ds2⟩
  · exact absurd rfl hne
  · have hddig : d.isDigit = true := hd d (by simp)
    have hdm : decide (d = '-') = false := by
      simp [(digit_ne d hddig).2.2.2.2.2.1]
    have hminus : optPrefix (fun c => c = '-') ((d :: ds2) ++ rest) =
        (false, (d :: ds2) ++ rest) := by
      simp [optPrefix, hdm]
    simp only [matchNumeral]
    rw [hminus]
    dsimp only
    rw [takeDigits_exact (d :: ds2) hd rest hs1]
    dsimp only
    rw [hdot]
    dsimp only
    rw [htake0]
    dsimp only
    rw [hE]
    dsimp only
    rw [hsign]
    dsimp only
    rw [htake0]


theorem matchNumeral_digits_neg (ds : List Char) (hne : ds ≠ [])
    (hd : ∀ c ∈ ds, c.isDigit = true) (rest : List Char) (hstop : numStop rest = true) :
    matchNumeral ('-' :: (ds ++ rest)) =
      some ({ sign := true, ds := ds, dot := false, frac := [],
              hasE := false, esign := none, eds := [] }, rest) := by
  obtain ⟨hs1, hs2, hs3, hs4⟩ := numStop_facts rest hstop
  have hdot : optPrefix (fun c => c = '.') rest = (false, rest) := by
    apply optPrefix_none
    rcases hs2 with h | h
    · exact .inl h
    · exact .inr h
  have hE : optPrefix (fun c => c = 'e' || c = 'E') rest = (false, rest) := by
    apply optPrefix_none
    rcases hs3 with h | h
    · exact .inl h
    · exact .inr h
  have htake0 : takeDigits rest = ([], rest) := takeDigits_none rest hs1
  have hsign : optSign rest = (none, rest) := optSign_none rest hs4
  rcases ds with _ | ⟨d, ds2⟩
  · exact absurd rfl hne
  · have hminus : optPrefix (fun c => c = '-') ('-' :: ((d :: ds2) ++ rest)) =
        (true, (d :: ds2) ++ rest) := by
      simp [optPrefix]
    simp only [matchNumeral]
    rw [hminus]
    dsimp only
    rw [takeDigits_exact (d :: ds2) hd rest hs1]
    dsimp only
    rw [hdot]
    dsimp only
    rw [htake0]
    dsimp only
    rw [hE]
    dsimp only
    rw [hsign]
    dsimp only
    rw [htake0]

theorem parse_num_val_intRepr (i : Int) (rest : List Char) (hstop : numStop rest = true)
    (pos : Nat) :
    parse_num_val (intRepr i ++ rest) pos =
      .ok (.num i, rest, pos + (intRepr i).length) := by
  have hdig := decRepr_digits i.natAbs
  have hne := decRepr_ne_nil i.natAbs
  by_cases hneg : i < 0
  · have hrepr : intRepr i = '-' :: decRepr i.natAbs := by simp [intRepr, hneg]
    rw [hrepr]
    simp only [List.cons_append, parse_num_val]
    rw [matchNumeral_digits_neg _ hne hdig rest hstop]
    dsimp only
    have hv : -((i.natAbs : Nat) : Int) = i := by omega
    simp only [numeralOk, numeralVal, Numeral.len]
    simp [digitsVal_decRepr, hv, List.length_cons]
    refine ⟨?_, by omega⟩
    rw [abs_of_neg hneg, neg_neg]
  · have hrepr : intRepr i = decRepr i.natAbs := by simp [intRepr, hneg]
    rw [hrepr]
    simp only [parse_num_val]
    rw [matchNumeral_digits _ hne hdig rest hstop]
    dsimp only
    have hv : ((i.natAbs : Nat) : Int) = i := by omega
    simp only [numeralOk, numeralVal, Numeral.len]
    simp [digitsVal_decRepr, hv]


theorem json_encode_ne_nil (e : JValue) (enc : List Char)
    (h : json_encode e false = .ok enc) : enc ≠ [] := by
  intro hnil
  subst hnil
  cases e with
  | table kvs =>
    rw [json_encode] at h
    rcases hk : kind_of (.table kvs) with _ | _ | _ | _ | _ | _ <;> rw [hk] at h
    case karray =>
      rcases hb : encSeq kvs (plen kvs) 1 with e2 | b <;>
        simp [hb, pure, Except.pure, Except.bind, bind] at h
    all_goals
      rcases hb : encPairs kvs true with e2 | b <;>
        simp [hb, pure, Except.pure, Except.bind, bind] at h
  | str s =>
    rw [json_encode] at h
    simp [pure, Except.pure] at h
  | num i =>
    rw [json_encode] at h
    by_cases hneg : i < 0 <;>
      simp [intRepr, hneg, pure, Except.pure] at h
    exact decRepr_ne_nil _ h
  | bool b =>
    rw [json_encode] at h
    rcases b <;> simp [pure, Except.pure] at h
  | null =>
    rw [json_encode] at h
    simp [pure, Except.pure] at h

theorem json_decode_cons_space (fuel : Nat) (c : Char) (hc : luaSpace c = true)
    (l : List Char) (hl : l ≠ []) (pos : Nat) (d : Option Char) :
    json_decode fuel (c :: l) pos d = json_decode fuel l (pos + 1) d := by
  rcases fuel with _ | f
  · rfl
  · rcases l with _ | ⟨c2, t⟩
    · exact absurd rfl hl
    · simp only [json_decode]
      rw [show skipWs (c :: c2 :: t) pos = skipWs (c2 :: t) (pos + 1) from by
        simp [skipWs, hc]]

theorem json_decode_close (fuel : Nat) (c : Char) (hc : c = '}' ∨ c = ']')
    (l : List Char) (pos : Nat) :
    json_decode (fuel + 1) (c :: l) pos (some c) = .ok (none, l, pos + 1) := by
  rcases hc with h | h <;> subst h <;>
  · simp only [json_decode]
    simp [skipWs, luaSpace]

theorem json_decode_lit_true (fuel : Nat) (l : List Char) (pos : Nat) (d : Option Char)
    (hd : d = none ∨ d = some '}' ∨ d = some ']') :
    json_decode (fuel + 1) ('t' :: 'r' :: 'u' :: 'e' :: l) pos d =
      .ok (some (.bool true), l, pos + 4) := by
  have hdt : (d = some 't') = False := by
    rcases hd with h | h | h <;> subst h <;> simp
  simp only [json_decode]
  simp [skipWs, luaSpace, hdt]

theorem json_decode_lit_false (fuel : Nat) (l : List Char) (pos : Nat) (d : Option Char)
    (hd : d = none ∨ d = some '}' ∨ d = some ']') :
    json_decode (fuel + 1) ('f' :: 'a' :: 'l' :: 's' :: 'e' :: l) pos d =
      .ok (some (.bool false), l, pos + 5) := by
  have hdt : (d = some 'f') = False := by
    rcases hd with h | h | h <;> subst h <;> simp
  simp only [json_decode]
  simp [skipWs, luaSpace, hdt]

theorem json_decode_str (fuel : Nat) (s : List Char) (hs : s.all goodChar = true)
    (rest : List Char) (pos : Nat) (d : Option Char) :
    ∃ p2, json_decode (fuel + 1) ('"' :: (escape_str s ++ '"' :: rest)) pos d =
      .ok (some (.str s), rest, p2) := by
  obtain ⟨p2, hp⟩ := parse_str_val_escape s hs rest (pos + 1)
  refine ⟨p2, ?_⟩
  simp only [json_decode]
  rw [show skipWs ('"' :: (escape_str s ++ '"' :: rest)) pos =
      ('"' :: (escape_str s ++ '"' :: rest), pos) from by simp [skipWs, luaSpace]]
  simp [hp]

theorem json_decode_num (fuel : Nat) (i : Int) (rest : List Char)
    (hstop : numStop rest = true) (pos : Nat) (d : Option Char) :
    json_decode (fuel + 1) (intRepr i ++ rest) pos d =
      .ok (some (.num i), rest, pos + (intRepr i).length) := by
  have hpn := parse_num_val_intRepr i rest hstop pos
  by_cases hneg : i < 0
  · have hrepr : intRepr i = '-' :: decRepr i.natAbs := by simp [intRepr, hneg]
    rw [hrepr] at hpn ⊢
    simp only [List.cons_append] at hpn ⊢
    simp only [json_decode]
    rw [show skipWs ('-' :: (decRepr i.natAbs ++ rest)) pos =
        ('-' :: (decRepr i.natAbs ++ rest), pos) from by simp [skipWs, luaSpace]]
    simp [hpn]
  · have hrepr : intRepr i = decRepr i.natAbs := by simp [intRepr, hneg]
    rw [hrepr] at hpn ⊢
    rcases hds : decRepr i.natAbs with _ | ⟨c, t⟩
    · exact absurd hds (decRepr_ne_nil _)
    · have hcd : c.isDigit = true := by
        have := decRepr_digits i.natAbs
        rw [hds] at this
        exact this c (by simp)
      obtain ⟨hne1, hne2, hne3, _, _, _, _⟩ := digit_ne c hcd
      rw [hds] at hpn
      simp only [List.cons_append] at hpn ⊢
      simp only [json_decode]
      rw [show skipWs (c :: (t ++ rest)) pos = (c :: (t ++ rest), pos) from by
        simp [skipWs, digit_not_space c hcd]]
      simp [hne1, hne2, hne3, hcd, hpn]


/-- Concatenation of entry lists (decode builds tables by appending fresh
keys, so the result of the loop is the accumulated prefix followed by the
remaining pairs). -/
def pappend : JPairs → JPairs → JPairs
  | .nil, ys => ys
  | .cons k v r, ys => .cons k v (pappend r ys)

/-- No key of the second table occurs in the first. -/
def keysDisjoint (acc : JPairs) : JPairs → Prop
  | .nil => True
  | .cons k _ r => lookupTab k acc = none ∧ keysDisjoint acc r

theorem pappend_nil (a : JPairs) : pappend a .nil = a :=
  match a with
  | .nil => rfl
  | .cons k v r => by simp [pappend, pappend_nil r]

theorem pappend_snoc (a : JPairs) (k v : JValue) (r : JPairs) :
    pappend (pappend a (.cons k v .nil)) r = pappend a (.cons k v r) :=
  match a with
  | .nil => rfl
  | .cons k1 v1 r1 => by simp [pappend, pappend_snoc r1 k v r]

theorem lookupTab_pappend (k : JValue) (a b : JPairs) :
    lookupTab k (pappend a b) =
      match lookupTab k a with
      | some v => some v
      | none => lookupTab k b :=
  match a with
  | .nil => by simp [pappend, lookupTab]
  | .cons k1 v1 r1 => by
    by_cases hk : k1 = k <;> simp [pappend, lookupTab, hk, lookupTab_pappend k r1 b]

theorem setTab_fresh (k : JValue) (v : JValue) (acc : JPairs)
    (h : lookupTab k acc = none) :
    setTab k (some v) acc = pappend acc (.cons k v .nil) :=
  match acc with
  | .nil => rfl
  | .cons k1 v1 r => by
    simp only [lookupTab] at h
    by_cases hk : k1 = k
    · simp [hk] at h
    · simp only [hk, if_false] at h
      simp [setTab, pappend, hk, setTab_fresh k v r h]

theorem keysDisjoint_nil (b : JPairs) : keysDisjoint .nil b :=
  match b with
  | .nil => trivial
  | .cons k v r => ⟨rfl, keysDisjoint_nil r⟩

theorem keysDisjoint_step (acc : JPairs) (k : JValue) (v : JValue) (r : JPairs)
    (hd : keysDisjoint acc r) (hk : lookupTab k r = none) :
    keysDisjoint (pappend acc (.cons k v .nil)) r :=
  match r with
  | .nil => trivial
  | .cons k2 v2 r2 => by
    obtain ⟨h1, h2⟩ := hd
    simp only [lookupTab] at hk
    by_cases hkk : k2 = k
    · simp [hkk] at hk
    · simp only [hkk, if_false] at hk
      refine ⟨?_, keysDisjoint_step acc k v r2 h2 hk⟩
      rw [lookupTab_pappend, h1]
      simp only [lookupTab]
      have hne : ¬(k = k2) := fun heq => hkk heq.symm
      simp [hne]

theorem goodSeqFrom_lookup (kvs : JPairs) (i : Nat) (hg : goodSeqFrom i kvs = true)
    (j : Nat) (h1 : i ≤ j) (h2 : j < i + plen kvs) :
    (lookupTab (.num (j : Int)) kvs).isSome = true :=
  match kvs with
  | .nil => by simp [plen] at h2; omega
  | .cons k v r => by
    simp only [goodSeqFrom, Bool.and_eq_true, decide_eq_true_eq] at hg
    obtain ⟨⟨hk, _⟩, hr⟩ := hg
    subst hk
    simp only [lookupTab]
    by_cases hij : i = j
    · subst hij
      simp
    · have hne : ¬(JValue.num (i : Int) = JValue.num (j : Int)) := by
        intro heq
        rw [JValue.num.injEq] at heq
        omega
      simp only [hne, if_false]
      simp only [plen] at h2
      exact goodSeqFrom_lookup r (i + 1) hr j (by omega) (by omega)

theorem goodMapP_num_lookup (kvs : JPairs) (h : goodMapP kvs = true) (j : Int) :
    lookupTab (.num j) kvs = none :=
  match kvs with
  | .nil => rfl
  | .cons k v r => by
    simp only [goodMapP, Bool.and_eq_true] at h
    obtain ⟨⟨⟨hk, _⟩, _⟩, hr⟩ := h
    have hkne : ¬(k = JValue.num j) := by
      rcases k with _ | _ | _ | s | _ <;> simp at hk ⊢
    simp only [lookupTab, hkne, if_false]
    exact goodMapP_num_lookup r hr j

theorem kind_of_goodSeq (kvs : JPairs) (hg : goodSeqFrom 1 kvs = true)
    (hne : kvs ≠ .nil) : kind_of (.table kvs) = .karray := by
  have hplen : 1 ≤ plen kvs := by
    rcases kvs with _ | ⟨k, v, r⟩
    · exact absurd rfl hne
    · simp [plen]
  have hseq : seqKeys kvs (plen kvs) = true := by
    rw [seqKeys, List.all_eq_true]
    intro j hj
    rw [List.mem_range] at hj
    have hlook := goodSeqFrom_lookup kvs 1 hg (j + 1) (by omega) (by omega)
    have hcast : (((j + 1 : Nat)) : Int) = ((j : Int) + 1) := by push_cast; ring
    rw [hcast] at hlook
    simpa using hlook
  rw [kind_of]
  have h0 : ¬(plen kvs = 0) := by omega
  simp [h0, hseq]

theorem kind_of_goodMap (kvs : JPairs) (hm : goodMapP kvs = true) :
    kind_of (.table kvs) = .ktable := by
  cases kvs with
  | nil => rfl
  | cons k v r =>
    have hplen : 1 ≤ plen (JPairs.cons k v r) := by simp [plen]
    have hseq : seqKeys (JPairs.cons k v r) (plen (JPairs.cons k v r)) = false := by
      rw [seqKeys, List.all_eq_false]
      refine ⟨0, ?_, ?_⟩
      · rw [List.mem_range]; omega
      · rw [goodMapP_num_lookup (JPairs.cons k v r) hm _]
        simp
    rw [kind_of]
    simp [hseq]

/-- The encoder succeeds on the value (with `as_key = false`). -/
def encOK (e : JValue) : Prop := ∃ enc, json_encode e false = .ok enc

/-- The encoder succeeds on every value of the table. -/
def encOKP : JPairs → Prop
  | .nil => True
  | .cons _ v r => encOK v ∧ encOKP r

theorem encSeq_ok (kvs0 : JPairs) (kvs : JPairs) (i fuelE : Nat)
    (hg : goodSeqFrom i kvs = true)
    (hagree : ∀ j : Nat, i ≤ j →
      lookupTab (.num (j : Int)) kvs0 = lookupTab (.num (j : Int)) kvs)
    (hok : encOKP kvs) (hfuel : plen kvs ≤ fuelE) :
    ∃ body, encSeq kvs0 fuelE i = .ok body :=
  match kvs, fuelE with
  | .nil, 0 => ⟨[], by rw [encSeq]; rfl⟩
  | .nil, f + 1 => by
    have hnone : lookupTab (.num (i : Int)) kvs0 = none :=
      (hagree i (le_refl i)).trans rfl
    refine ⟨[], ?_⟩
    rw [encSeq]
    try dsimp only
    split
    · rfl
    · rename_i v heq
      rw [hnone] at heq
      exact absurd heq (by simp)
  | .cons k v r, fuelE => by
    simp only [goodSeqFrom, Bool.and_eq_true, decide_eq_true_eq] at hg
    obtain ⟨⟨hk, _⟩, hr⟩ := hg
    simp only [plen] at hfuel
    rcases fuelE with _ | f
    · omega
    · obtain ⟨⟨ev, hev⟩, hokr⟩ := hok
      have hagree2 : ∀ j : Nat, i + 1 ≤ j →
          lookupTab (.num (j : Int)) kvs0 = lookupTab (.num (j : Int)) r := by
        intro j hj
        rw [hagree j (by omega)]
        subst hk
        simp only [lookupTab]
        have hne : ¬(JValue.num (i : Int) = JValue.num (j : Int)) := by
          intro heq
          rw [JValue.num.injEq] at heq
          omega
        simp [hne]
      obtain ⟨body2, hb2⟩ := encSeq_ok kvs0 r (i + 1) f hr hagree2 hokr (by omega)
      have hlook : lookupTab (.num (i : Int)) kvs0 = some v := by
        rw [hagree i (le_refl i)]
        subst hk
        simp [lookupTab]
      refine ⟨(if 1 < i then [',', ' '] else []) ++ ev ++ body2, ?_⟩
      rw [encSeq]
      try dsimp only
      split
      · rename_i heq
        rw [hlook] at heq
        exact absurd heq (by simp)
      · rename_i v2 heq
        rw [hlook] at heq
        rw [Option.some.injEq] at heq
        subst heq
        rw [hev, hb2]
        rfl

theorem encPairs_ok (kvs : JPairs) (first : Bool) (hm : goodMapP kvs = true)
    (hok : encOKP kvs) : ∃ body, encPairs kvs first = .ok body :=
  match kvs with
  | .nil => ⟨[], by rw [encPairs]; rfl⟩
  | .cons k v r => by
    simp only [goodMapP, Bool.and_eq_true] at hm
    obtain ⟨⟨⟨hk, _⟩, _⟩, hr⟩ := hm
    obtain ⟨⟨ev, hev⟩, hokr⟩ := hok
    obtain ⟨body2, hb2⟩ := encPairs_ok r false hr hokr
    have hks : ∃ s, k = .str s := by
      rcases k with _ | _ | _ | s | _
      · simp at hk
      · simp at hk
      · simp at hk
      · exact ⟨s, rfl⟩
      · simp at hk
    obtain ⟨s, hs⟩ := hks
    subst hs
    refine ⟨(if first then [] else [',', ' ']) ++ ('"' :: escape_str s ++ ['"']) ++
      [':'] ++ ev ++ body2, ?_⟩
    rw [encPairs]
    rw [show json_encode (.str s) true = Except.ok ('"' :: escape_str s ++ ['"']) from by
      rw [json_encode]; rfl]
    rw [hev, hb2]
    rfl

theorem encOKP_seq (W : Nat) (IH : ∀ e, jweight e ≤ W → goodVal e = true → encOK e)
    (kvs : JPairs) (hg : ∃ i, goodSeqFrom i kvs = true) (hw : pweight kvs ≤ W) :
    encOKP kvs :=
  match kvs with
  | .nil => trivial
  | .cons k v r => by
    obtain ⟨i, hg⟩ := hg
    simp only [goodSeqFrom, Bool.and_eq_true, decide_eq_true_eq] at hg
    obtain ⟨⟨_, hv⟩, hr⟩ := hg
    simp only [pweight] at hw
    have h1 : jweight v ≤ W := by
      have := jweight_pos k
      omega
    exact ⟨IH v h1 hv, encOKP_seq W IH r ⟨i + 1, hr⟩ (by omega)⟩

theorem encOKP_map (W : Nat) (IH : ∀ e, jweight e ≤ W → goodVal e = true → encOK e)
    (kvs : JPairs) (hm : goodMapP kvs = true) (hw : pweight kvs ≤ W) :
    encOKP kvs :=
  match kvs with
  | .nil => trivial
  | .cons k v r => by
    simp only [goodMapP, Bool.and_eq_true] at hm
    obtain ⟨⟨⟨_, hv⟩, _⟩, hr⟩ := hm
    simp only [pweight] at hw
    have h1 : jweight v ≤ W := by
      have := jweight_pos k
      omega
    exact ⟨IH v h1 hv, encOKP_map W IH r hr (by omega)⟩

theorem json_encode_ok (W : Nat) :
    ∀ e, jweight e ≤ W → goodVal e = true → encOK e := by
  induction W with
  | zero => intro e hw _; have := jweight_pos e; omega
  | succ W ihW =>
    intro e hw hg
    cases e with
    | null => simp [goodVal] at hg
    | bool b =>
      exact ⟨if b then ['t', 'r', 'u', 'e'] else ['f', 'a', 'l', 's', 'e'],
        by rw [json_encode]; rfl⟩
    | num i => exact ⟨intRepr i, by rw [json_encode]; rfl⟩
    | str s => exact ⟨'"' :: escape_str s ++ ['"'], by rw [json_encode]; rfl⟩
    | table kvs =>
      simp only [jweight] at hw
      have hpw : pweight kvs ≤ W := by
        have : 0 ≤ plen kvs := Nat.zero_le _
        omega
      simp only [goodVal, Bool.or_eq_true] at hg
      by_cases hnil : kvs = .nil
      · subst hnil
        refine ⟨['{', '}'], ?_⟩
        rw [json_encode]
        rw [show kind_of (.table .nil) = .ktable from rfl]
        rw [show encPairs .nil true = Except.ok [] from by rw [encPairs]; rfl]
        rfl
      · rcases hg with hg | hg
        · have hk := kind_of_goodSeq kvs hg hnil
          have hokp := encOKP_seq W ihW kvs ⟨1, hg⟩ hpw
          obtain ⟨body, hbody⟩ := encSeq_ok kvs kvs 1 (plen kvs) hg
            (fun j _ => rfl) hokp (le_refl _)
          refine ⟨'[' :: body ++ [']'], ?_⟩
          rw [json_encode, hk]
          rw [hbody]
          rfl
        · have hk := kind_of_goodMap kvs hg
          have hokp := encOKP_map W ihW kvs hg hpw
          obtain ⟨body, hbody⟩ := encPairs_ok kvs true hg hokp
          refine ⟨'{' :: body ++ ['}'], ?_⟩
          rw [json_encode, hk]
          rw [hbody]
          rfl


/-- Output of the `ipairs` encoder loop past the first element: empty or
separator-led. -/
theorem encSeq_shape (kvs0 : JPairs) (fE i : Nat) (body : List Char) (hi : 1 < i)
    (h : encSeq kvs0 fE i = .ok body) : body = [] ∨ ∃ t, body = ',' :: ' ' :: t := by
  rcases fE with _ | f
  · rw [encSeq] at h
    simp only [pure, Except.pure, Except.ok.injEq] at h
    exact .inl h.symm
  · rw [encSeq] at h
    try dsimp only at h
    split at h
    · simp only [pure, Except.pure, Except.ok.injEq] at h
      exact .inl h.symm
    · rename_i v heq
      rcases hev : json_encode v false with e1 | ev
      · rw [hev] at h
        simp [bind, Except.bind] at h
      · rw [hev] at h
        rcases hb2 : encSeq kvs0 f (i + 1) with e2 | body2
        · rw [hb2] at h
          simp [bind, Except.bind] at h
        · rw [hb2] at h
          simp only [bind, Except.bind, pure, Except.pure, Except.ok.injEq] at h
          refine .inr ⟨ev ++ body2, ?_⟩
          rw [← h]
          simp [hi]

/-- A good sequence whose encoding from index `i > 1` is empty is exhausted. -/
theorem encSeq_nil_of (kvs0 : JPairs) (r : JPairs) (i fE : Nat)
    (hagree : ∀ j : Nat, i ≤ j →
      lookupTab (.num (j : Int)) kvs0 = lookupTab (.num (j : Int)) r)
    (hg : goodSeqFrom i r = true) (hfe : plen r ≤ fE) (hi : 1 < i)
    (h : encSeq kvs0 fE i = .ok []) : r = .nil := by
  cases r with
  | nil => rfl
  | cons k v r2 =>
    exfalso
    simp only [goodSeqFrom, Bool.and_eq_true, decide_eq_true_eq] at hg
    obtain ⟨⟨hk, _⟩, _⟩ := hg
    have hlook : lookupTab (.num (i : Int)) kvs0 = some v := by
      rw [hagree i (le_refl i)]
      subst hk
      simp [lookupTab]
    simp only [plen] at hfe
    rcases fE with _ | f
    · omega
    · rw [encSeq] at h
      try dsimp only at h
      split at h
      · rename_i heq
        rw [hlook] at heq
        exact absurd heq (by simp)
      · rename_i v2 heq
        rcases hev : json_encode v2 false with e1 | ev
        · rw [hev] at h
          simp [bind, Except.bind] at h
        · rw [hev] at h
          rcases hb2 : encSeq kvs0 f (i + 1) with e2 | body2
          · rw [hb2] at h
            simp [bind, Except.bind] at h
          · rw [hb2] at h
            simp only [bind, Except.bind, pure, Except.pure, Except.ok.injEq] at h
            rw [if_pos hi] at h
            exact List.noConfusion h

/-- Output of the `pairs` encoder loop past the first pair: empty or
separator-led. -/
theorem encPairs_shape (kvs : JPairs) (body : List Char)
    (h : encPairs kvs false = .ok body) : body = [] ∨ ∃ t, body = ',' :: ' ' :: t := by
  cases kvs with
  | nil =>
    rw [encPairs] at h
    simp only [pure, Except.pure, Except.ok.injEq] at h
    exact .inl h.symm
  | cons k v r =>
    rw [encPairs] at h
    try dsimp only at h
    rcases hek : json_encode k true with e1 | ek
    · rw [hek] at h
      simp [bind, Except.bind] at h
    · rw [hek] at h
      rcases hev : json_encode v false with e2 | ev
      · rw [hev] at h
        simp [bind, Except.bind] at h
      · rw [hev] at h
        rcases hb2 : encPairs r false with e3 | body2
        · rw [hb2] at h
          simp [bind, Except.bind] at h
        · rw [hb2] at h
          simp only [bind, Except.bind, pure, Except.pure, Except.ok.injEq] at h
          refine .inr ⟨ek ++ [':'] ++ ev ++ body2, ?_⟩
          rw [← h]
          simp

/-- A good mapping whose encoding past the first pair is empty is exhausted. -/
theorem encPairs_nil_of (r : JPairs) (h : encPairs r false = .ok []) : r = .nil := by
  cases r with
  | nil => rfl
  | cons k v r2 =>
    exfalso
    rw [encPairs] at h
    try dsimp only at h
    rcases hek : json_encode k true with e1 | ek
    · rw [hek] at h
      simp [bind, Except.bind] at h
    · rw [hek] at h
      rcases hev : json_encode v false with e2 | ev
      · rw [hev] at h
        simp [bind, Except.bind] at h
      · rw [hev] at h
        rcases hb2 : encPairs r2 false with e3 | body2
        · rw [hb2] at h
          simp [bind, Except.bind] at h
        · rw [hb2] at h
          simp only [bind, Except.bind, pure, Except.pure, Except.ok.injEq] at h
          exact List.noConfusion h

/-- Round-trip property of a value: the decoder applied to its encoding
followed by a numeral-stopping continuation returns exactly the value and
the continuation, for any sufficient fuel, position and permitted closing
delimiter. -/
def RTspec (e : JValue) : Prop :=
  ∀ (enc : List Char), json_encode e false = .ok enc →
  ∀ (fuel : Nat) (rest : List Char) (pos : Nat) (d : Option Char),
    2 * (enc.length + rest.length) + 1 ≤ fuel →
    numStop rest = true →
    (d = none ∨ d = some '}' ∨ d = some ']') →
    ∃ p2, json_decode fuel (enc ++ rest) pos d = .ok (some e, rest, p2)

/-- Round-trip property of every value of a table. -/
def valsRT : JPairs → Prop
  | .nil => True
  | .cons _ v r => RTspec v ∧ valsRT r


/-- The `'['` loop of the decoder inverts the `ipairs` loop of the encoder:
entered with counter `len = i - 1` on the remaining encoded elements followed
by the closing bracket, it returns the accumulated table extended by the
remaining pairs and consumes exactly through the bracket. -/
theorem decode_arr_loop (kvs0 : JPairs) (kvs : JPairs) (i : Nat) (hi : 1 ≤ i)
    (hg : goodSeqFrom i kvs = true)
    (hRT : valsRT kvs)
    (hagree : ∀ j : Nat, i ≤ j →
      lookupTab (.num (j : Int)) kvs0 = lookupTab (.num (j : Int)) kvs)
    (fuelE : Nat) (body : List Char) (hfe : plen kvs ≤ fuelE)
    (hbody : encSeq kvs0 fuelE i = .ok body)
    (acc : JPairs) (len : Nat) (hlen : len + 1 = i)
    (hacc : ∀ z : Int, (len : Int) < z → lookupTab (.num z) acc = none)
    (df : Bool) (hdf : kvs = .nil ∨ df = true)
    (fuel : Nat) (rest : List Char) (pos : Nat)
    (hfuel : 2 * ((if 1 < i then body.tail else body) ++ ']' :: rest).length + 2 ≤ fuel) :
    ∃ p2, json_decode_arr fuel acc len df
        ((if 1 < i then body.tail else body) ++ ']' :: rest) pos =
      .ok (some (.table (pappend acc kvs)), rest, p2) :=
  match kvs, hg, hRT, hdf with
  | .nil, _, _, _ => by
    have hnone : lookupTab (.num (i : Int)) kvs0 = none :=
      (hagree i (le_refl i)).trans rfl
    have hb : body = [] := by
      rcases fuelE with _ | fE
      · rw [encSeq] at hbody
        simp only [pure, Except.pure, Except.ok.injEq] at hbody
        exact hbody.symm
      · rw [encSeq] at hbody
        try dsimp only at hbody
        split at hbody
        · simp only [pure, Except.pure, Except.ok.injEq] at hbody
          exact hbody.symm
        · rename_i v heq
          rw [hnone] at heq
          exact absurd heq (by simp)
    have hin : (if 1 < i then body.tail else body) ++ ']' :: rest = ']' :: rest := by
      rw [hb]
      simp
    rw [hin] at hfuel ⊢
    rcases fuel with _ | f2
    · exfalso
      omega
    rcases f2 with _ | f3
    · exfalso
      simp only [List.length_cons] at hfuel
      omega
    simp only [json_decode_arr]
    rw [json_decode_close f3 ']' (.inr rfl) rest pos]
    dsimp only
    rw [pappend_nil]
    exact ⟨pos + 1, rfl⟩
  | .cons k v r, hg, hRT, hdf => by
    obtain ⟨hRTv, hRTr⟩ := hRT
    have hdf2 : df = true := by
      rcases hdf with h | h
      · exact absurd h (fun h2 => JPairs.noConfusion h2)
      · exact h
    subst hdf2
    simp only [goodSeqFrom, Bool.and_eq_true, decide_eq_true_eq] at hg
    obtain ⟨⟨hk, hgv⟩, hgr⟩ := hg
    subst hk
    have hlook : lookupTab (.num (i : Int)) kvs0 = some v := by
      rw [hagree i (le_refl i)]
      simp [lookupTab]
    have hagree2 : ∀ j : Nat, i + 1 ≤ j →
        lookupTab (.num (j : Int)) kvs0 = lookupTab (.num (j : Int)) r := by
      intro j hj
      rw [hagree j (by omega)]
      simp only [lookupTab]
      have hne : ¬(JValue.num (i : Int) = JValue.num (j : Int)) := by
        intro heq
        rw [JValue.num.injEq] at heq
        omega
      simp [hne]
    simp only [plen] at hfe
    rcases fuelE with _ | fE
    · exact absurd hfe (by omega)
    rw [encSeq] at hbody
    try dsimp only at hbody
    split at hbody
    · rename_i heq
      rw [hlook] at heq
      exact absurd heq (by simp)
    rename_i v2 heq
    rw [hlook, Option.some.injEq] at heq
    subst heq
    rcases hev : json_encode v false with e1 | ev
    · rw [hev] at hbody
      simp [bind, Except.bind] at hbody
    rw [hev] at hbody
    rcases hb2 : encSeq kvs0 fE (i + 1) with e2 | body2
    · rw [hb2] at hbody
      simp [bind, Except.bind] at hbody
    rw [hb2] at hbody
    simp only [bind, Except.bind, pure, Except.pure, Except.ok.injEq] at hbody
    subst hbody
    have hevlen : 0 < ev.length := List.length_pos.mpr (json_encode_ne_nil v ev hev)
    have hshape := encSeq_shape kvs0 fE (i + 1) body2 (by omega) hb2
    have hstop2 : numStop (body2 ++ ']' :: rest) = true := by
      rcases hshape with h | ⟨t, h⟩ <;> subst h <;> rfl
    have hK : JValue.num ((len : Int) + 1) = JValue.num (i : Int) := by
      rw [JValue.num.injEq]
      omega
    have hsetTab : setTab (.num ((len : Int) + 1)) (some v) acc =
        pappend acc (.cons (.num ((len : Int) + 1)) v .nil) :=
      setTab_fresh _ v acc (hacc _ (by omega))
    have hacc2 : ∀ z : Int, ((len + 1 : Nat) : Int) < z →
        lookupTab (.num z) (pappend acc (.cons (.num ((len : Int) + 1)) v .nil)) = none := by
      intro z hz
      push_cast at hz
      rw [lookupTab_pappend, hacc z (by omega)]
      simp only [lookupTab]
      have hne : ¬(JValue.num ((len : Int) + 1) = JValue.num z) := by
        intro heq
        rw [JValue.num.injEq] at heq
        omega
      simp [hne]
    by_cases hi1 : 1 < i
    · have hin : (if 1 < i then (((if 1 < i then [',', ' '] else []) ++ ev ++ body2).tail)
          else ((if 1 < i then [',', ' '] else []) ++ ev ++ body2)) ++ ']' :: rest =
          ' ' :: (ev ++ (body2 ++ ']' :: rest)) := by
        rw [if_pos hi1, if_pos hi1]
        simp
      rw [hin] at hfuel ⊢
      simp only [List.length_cons, List.length_append] at hfuel
      rcases fuel with _ | f2
      · exact absurd hfuel (by omega)
      simp only [json_decode_arr]
      rw [json_decode_cons_space f2 ' ' (by decide) (ev ++ (body2 ++ ']' :: rest))
        (by simp) pos (some ']')]
      obtain ⟨pv, hpv⟩ := hRTv ev hev f2 (body2 ++ ']' :: rest) (pos + 1) (some ']')
        (by simp only [List.length_append, List.length_cons]; omega) hstop2 (.inr (.inr rfl))
      rw [hpv]
      dsimp only
      simp only [Bool.not_true, Bool.false_eq_true, if_false]
      rcases hshape with hsh | ⟨t, hsh⟩ <;> subst hsh
      · have hrnil : r = .nil :=
          encSeq_nil_of kvs0 r (i + 1) fE hagree2 hgr (by omega) (by omega) hb2
        subst hrnil
        rw [show skip_delim (([] : List Char) ++ ']' :: rest) pv ',' false =
            .ok (']' :: rest, pv, false) from by simp [skip_delim, skipWs, luaSpace]]
        dsimp only
        rw [hsetTab]
        obtain ⟨p2, hp2⟩ := decode_arr_loop kvs0 .nil (i + 1) (by omega) rfl trivial
          hagree2 fE [] (by omega) hb2
          (pappend acc (.cons (.num ((len : Int) + 1)) v .nil)) (len + 1) (by omega) hacc2
          false (.inl rfl) f2 rest pv
          (by simp only [List.tail_nil, ite_self, List.nil_append, List.length_cons]; omega)
        simp only [List.tail_nil, ite_self, List.nil_append] at hp2
        rw [hp2, pappend_nil, hK]
        exact ⟨p2, rfl⟩
      · simp only [List.cons_append]
        rw [show skip_delim (',' :: ' ' :: (t ++ ']' :: rest)) pv ',' false =
            .ok (' ' :: (t ++ ']' :: rest), pv + 1, true) from by
          simp [skip_delim, skipWs, luaSpace]]
        dsimp only
        rw [hsetTab]
        obtain ⟨p2, hp2⟩ := decode_arr_loop kvs0 r (i + 1) (by omega) hgr hRTr
          hagree2 fE (',' :: ' ' :: t) (by omega) hb2
          (pappend acc (.cons (.num ((len : Int) + 1)) v .nil)) (len + 1) (by omega) hacc2
          true (.inr rfl) f2 rest (pv + 1)
          (by
            rw [if_pos (show 1 < i + 1 from by omega)]
            simp only [List.tail_cons, List.cons_append, List.length_cons,
              List.length_append]
            simp only [List.length_cons] at hfuel
            omega)
        rw [if_pos (show 1 < i + 1 from by omega)] at hp2
        simp only [List.tail_cons, List.cons_append] at hp2
        rw [hp2, pappend_snoc, hK]
        exact ⟨p2, rfl⟩
    · have hin : (if 1 < i then (((if 1 < i then [',', ' '] else []) ++ ev ++ body2).tail)
          else ((if 1 < i then [',', ' '] else []) ++ ev ++ body2)) ++ ']' :: rest =
          ev ++ (body2 ++ ']' :: rest) := by
        rw [if_neg hi1, if_neg hi1]
        simp
      rw [hin] at hfuel ⊢
      simp only [List.length_append, List.length_cons] at hfuel
      rcases fuel with _ | f2
      · exact absurd hfuel (by omega)
      simp only [json_decode_arr]
      obtain ⟨pv, hpv⟩ := hRTv ev hev f2 (body2 ++ ']' :: rest) pos (some ']')
        (by simp only [List.length_append, List.length_cons]; omega) hstop2 (.inr (.inr rfl))
      rw [hpv]
      dsimp only
      simp only [Bool.not_true, Bool.false_eq_true, if_false]
      rcases hshape with hsh | ⟨t, hsh⟩ <;> subst hsh
      · have hrnil : r = .nil :=
          encSeq_nil_of kvs0 r (i + 1) fE hagree2 hgr (by omega) (by omega) hb2
        subst hrnil
        rw [show skip_delim (([] : List Char) ++ ']' :: rest) pv ',' false =
            .ok (']' :: rest, pv, false) from by simp [skip_delim, skipWs, luaSpace]]
        dsimp only
        rw [hsetTab]
        obtain ⟨p2, hp2⟩ := decode_arr_loop kvs0 .nil (i + 1) (by omega) rfl trivial
          hagree2 fE [] (by omega) hb2
          (pappend acc (.cons (.num ((len : Int) + 1)) v .nil)) (len + 1) (by omega) hacc2
          false (.inl rfl) f2 rest pv
          (by simp only [List.tail_nil, ite_self, List.nil_append, List.length_cons]; omega)
        simp only [List.tail_nil, ite_self, List.nil_append] at hp2
        rw [hp2, pappend_nil, hK]
        exact ⟨p2, rfl⟩
      · simp only [List.cons_append]
        rw [show skip_delim (',' :: ' ' :: (t ++ ']' :: rest)) pv ',' false =
            .ok (' ' :: (t ++ ']' :: rest), pv + 1, true) from by
          simp [skip_delim, skipWs, luaSpace]]
        dsimp only
        rw [hsetTab]
        obtain ⟨p2, hp2⟩ := decode_arr_loop kvs0 r (i + 1) (by omega) hgr hRTr
          hagree2 fE (',' :: ' ' :: t) (by omega) hb2
          (pappend acc (.cons (.num ((len : Int) + 1)) v .nil)) (len + 1) (by omega) hacc2
          true (.inr rfl) f2 rest (pv + 1)
          (by
            rw [if_pos (show 1 < i + 1 from by omega)]
            simp only [List.tail_cons, List.cons_append, List.length_cons,
              List.length_append]
            simp only [List.length_cons] at hfuel
            omega)
        rw [if_pos (show 1 < i + 1 from by omega)] at hp2
        simp only [List.tail_cons, List.cons_append] at hp2
        rw [hp2, pappend_snoc, hK]
        exact ⟨p2, rfl⟩


/-- The `'{'` loop of the decoder inverts the `pairs` loop of the encoder:
entered on the remaining encoded pairs followed by the closing brace, it
returns the accumulated table extended by the remaining pairs. -/
theorem decode_obj_loop (kvs : JPairs)
    (hm : goodMapP kvs = true) (hRT : valsRT kvs)
    (first : Bool) (body : List Char) (hbody : encPairs kvs first = .ok body)
    (acc : JPairs) (hdisj : keysDisjoint acc kvs)
    (df : Bool) (hdf : kvs = .nil ∨ df = true)
    (fuel : Nat) (rest : List Char) (pos : Nat)
    (hfuel : 2 * ((if first then body else body.tail) ++ '}' :: rest).length + 2 ≤ fuel) :
    ∃ p2, json_decode_obj fuel acc df
        ((if first then body else body.tail) ++ '}' :: rest) pos =
      .ok (some (.table (pappend acc kvs)), rest, p2) :=
  match kvs, hm, hRT, hdisj, hdf with
  | .nil, _, _, _, _ => by
    have hb : body = [] := by
      rw [encPairs] at hbody
      simp only [pure, Except.pure, Except.ok.injEq] at hbody
      exact hbody.symm
    have hin : (if first then body else body.tail) ++ '}' :: rest = '}' :: rest := by
      rw [hb]
      simp
    rw [hin] at hfuel ⊢
    rcases fuel with _ | f2
    · exfalso
      omega
    rcases f2 with _ | f3
    · exfalso
      simp only [List.length_cons] at hfuel
      omega
    simp only [json_decode_obj]
    rw [json_decode_close f3 '}' (.inl rfl) rest pos]
    dsimp only
    rw [pappend_nil]
    exact ⟨pos + 1, rfl⟩
  | .cons k v r, hm, hRT, hdisj, hdf => by
    obtain ⟨hRTv, hRTr⟩ := hRT
    obtain ⟨hfreshAcc, hdisjR⟩ := hdisj
    have hdf2 : df = true := by
      rcases hdf with h | h
      · exact absurd h (fun h2 => JPairs.noConfusion h2)
      · exact h
    subst hdf2
    simp only [goodMapP, Bool.and_eq_true] at hm
    obtain ⟨⟨⟨hk, hgv⟩, hfresh⟩, hmr⟩ := hm
    obtain ⟨s, hs, hsChars⟩ : ∃ s, k = .str s ∧ s.all goodChar = true := by
      rcases k with _ | _ | _ | s | _
      · simp at hk
      · simp at hk
      · simp at hk
      · exact ⟨s, rfl, hk⟩
      · simp at hk
    subst hs
    rw [encPairs] at hbody
    try dsimp only at hbody
    rw [show json_encode (.str s) true = Except.ok ('"' :: escape_str s ++ ['"']) from by
      rw [json_encode]; rfl] at hbody
    rcases hev : json_encode v false with e1 | ev
    · rw [hev] at hbody
      simp [bind, Except.bind] at hbody
    rw [hev] at hbody
    rcases hb2 : encPairs r false with e2 | body2
    · rw [hb2] at hbody
      simp [bind, Except.bind] at hbody
    rw [hb2] at hbody
    simp only [bind, Except.bind, pure, Except.pure, Except.ok.injEq] at hbody
    subst hbody
    have hevlen : 0 < ev.length := List.length_pos.mpr (json_encode_ne_nil v ev hev)
    have hshape := encPairs_shape r body2 hb2
    have hstop2 : numStop (body2 ++ '}' :: rest) = true := by
      rcases hshape with h | ⟨t, h⟩ <;> subst h <;> rfl
    have hsetTab : setTab (.str s) (some v) acc = pappend acc (.cons (.str s) v .nil) :=
      setTab_fresh _ v acc hfreshAcc
    have hdisj2 : keysDisjoint (pappend acc (.cons (.str s) v .nil)) r :=
      keysDisjoint_step acc (.str s) v r hdisjR (Option.isNone_iff_eq_none.mp hfresh)
    cases first with
    | true =>
      have hin : (if (true : Bool) then
            ((if (true : Bool) then [] else [',', ' ']) ++ ('"' :: escape_str s ++ ['"']) ++
              [':'] ++ ev ++ body2)
          else
            ((if (true : Bool) then [] else [',', ' ']) ++ ('"' :: escape_str s ++ ['"']) ++
              [':'] ++ ev ++ body2).tail) ++ '}' :: rest =
          '"' :: (escape_str s ++ '"' :: ':' :: (ev ++ (body2 ++ '}' :: rest))) := by
        simp
      rw [hin] at hfuel ⊢
      simp only [List.length_cons, List.length_append] at hfuel
      rcases fuel with _ | f2
      · exact absurd hfuel (by omega)
      simp only [json_decode_obj]
      rcases f2 with _ | f3
      · exact absurd hfuel (by omega)
      obtain ⟨pk, hpk⟩ := json_decode_str f3 s hsChars
        (':' :: (ev ++ (body2 ++ '}' :: rest))) pos (some '}')
      rw [hpk]
      dsimp only
      simp only [Bool.not_true, Bool.false_eq_true, if_false]
      rw [show skip_delim (':' :: (ev ++ (body2 ++ '}' :: rest))) pk ':' true =
          .ok (ev ++ (body2 ++ '}' :: rest), pk + 1, true) from by
        simp [skip_delim, skipWs, luaSpace]]
      dsimp only
      obtain ⟨pv, hpv⟩ := hRTv ev hev (f3 + 1) (body2 ++ '}' :: rest) (pk + 1) none
        (by simp only [List.length_append, List.length_cons]; omega) hstop2 (.inl rfl)
      rw [hpv]
      dsimp only
      rcases hshape with hsh | ⟨t, hsh⟩ <;> subst hsh
      · have hrnil : r = .nil := encPairs_nil_of r hb2
        subst hrnil
        rw [show skip_delim (([] : List Char) ++ '}' :: rest) pv ',' false =
            .ok ('}' :: rest, pv, false) from by simp [skip_delim, skipWs, luaSpace]]
        dsimp only
        rw [hsetTab]
        obtain ⟨p2, hp2⟩ := decode_obj_loop .nil rfl trivial false [] (by rw [encPairs]; rfl)
          (pappend acc (.cons (.str s) v .nil)) trivial false (.inl rfl)
          (f3 + 1) rest pv
          (by simp only [List.tail_nil, Bool.false_eq_true, if_false, List.nil_append,
            List.length_cons]; omega)
        simp only [List.tail_nil, Bool.false_eq_true, if_false, List.nil_append] at hp2
        rw [hp2, pappend_nil]
        exact ⟨p2, rfl⟩
      · simp only [List.cons_append]
        rw [show skip_delim (',' :: ' ' :: (t ++ '}' :: rest)) pv ',' false =
            .ok (' ' :: (t ++ '}' :: rest), pv + 1, true) from by
          simp [skip_delim, skipWs, luaSpace]]
        dsimp only
        rw [hsetTab]
        obtain ⟨p2, hp2⟩ := decode_obj_loop r hmr hRTr false (',' :: ' ' :: t) hb2
          (pappend acc (.cons (.str s) v .nil)) hdisj2 true (.inr rfl)
          (f3 + 1) rest (pv + 1)
          (by
            simp only [Bool.false_eq_true, if_false, List.tail_cons, List.cons_append,
              List.length_cons, List.length_append]
            simp only [List.length_cons] at hfuel
            omega)
        simp only [Bool.false_eq_true, if_false, List.tail_cons, List.cons_append] at hp2
        rw [hp2, pappend_snoc]
        exact ⟨p2, rfl⟩
    | false =>
      have hin : (if (false : Bool) then
            ((if (false : Bool) then [] else [',', ' ']) ++ ('"' :: escape_str s ++ ['"']) ++
              [':'] ++ ev ++ body2)
          else
            ((if (false : Bool) then [] else [',', ' ']) ++ ('"' :: escape_str s ++ ['"']) ++
              [':'] ++ ev ++ body2).tail) ++ '}' :: rest =
          ' ' :: ('"' :: (escape_str s ++ '"' :: ':' :: (ev ++ (body2 ++ '}' :: rest)))) := by
        simp
      rw [hin] at hfuel ⊢
      simp only [List.length_cons, List.length_append] at hfuel
      rcases fuel with _ | f2
      · exact absurd hfuel (by omega)
      simp only [json_decode_obj]
      rcases f2 with _ | f3
      · exact absurd hfuel (by omega)
      rw [json_decode_cons_space (f3 + 1) ' ' (by decide)
        ('"' :: (escape_str s ++ '"' :: ':' :: (ev ++ (body2 ++ '}' :: rest))))
        (by simp) pos (some '}')]
      obtain ⟨pk, hpk⟩ := json_decode_str f3 s hsChars
        (':' :: (ev ++ (body2 ++ '}' :: rest))) (pos + 1) (some '}')
      rw [hpk]
      dsimp only
      simp only [Bool.not_true, Bool.false_eq_true, if_false]
      rw [show skip_delim (':' :: (ev ++ (body2 ++ '}' :: rest))) pk ':' true =
          .ok (ev ++ (body2 ++ '}' :: rest), pk + 1, true) from by
        simp [skip_delim, skipWs, luaSpace]]
      dsimp only
      obtain ⟨pv, hpv⟩ := hRTv ev hev (f3 + 1) (body2 ++ '}' :: rest) (pk + 1) none
        (by simp only [List.length_append, List.length_cons]; omega) hstop2 (.inl rfl)
      rw [hpv]
      dsimp only
      rcases hshape with hsh | ⟨t, hsh⟩ <;> subst hsh
      · have hrnil : r = .nil := encPairs_nil_of r hb2
        subst hrnil
        rw [show skip_delim (([] : List Char) ++ '}' :: rest) pv ',' false =
            .ok ('}' :: rest, pv, false) from by simp [skip_delim, skipWs, luaSpace]]
        dsimp only
        rw [hsetTab]
        obtain ⟨p2, hp2⟩ := decode_obj_loop .nil rfl trivial false [] (by rw [encPairs]; rfl)
          (pappend acc (.cons (.str s) v .nil)) trivial false (.inl rfl)
          (f3 + 1) rest pv
          (by simp only [List.tail_nil, Bool.false_eq_true, if_false, List.nil_append,
            List.length_cons]; omega)
        simp only [List.tail_nil, Bool.false_eq_true, if_false, List.nil_append] at hp2
        rw [hp2, pappend_nil]
        exact ⟨p2, rfl⟩
      · simp only [List.cons_append]
        rw [show skip_delim (',' :: ' ' :: (t ++ '}' :: rest)) pv ',' false =
            .ok (' ' :: (t ++ '}' :: rest), pv + 1, true) from by
          simp [skip_delim, skipWs, luaSpace]]
        dsimp only
        rw [hsetTab]
        obtain ⟨p2, hp2⟩ := decode_obj_loop r hmr hRTr false (',' :: ' ' :: t) hb2
          (pappend acc (.cons (.str s) v .nil)) hdisj2 true (.inr rfl)
          (f3 + 1) rest (pv + 1)
          (by
            simp only [Bool.false_eq_true, if_false, List.tail_cons, List.cons_append,
              List.length_cons, List.length_append]
            simp only [List.length_cons] at hfuel
            omega)
        simp only [Bool.false_eq_true, if_false, List.tail_cons, List.cons_append] at hp2
        rw [hp2, pappend_snoc]
        exact ⟨p2, rfl⟩


theorem json_decode_open_arr (fuel : Nat) (l : List Char) (pos : Nat) (d : Option Char) :
    json_decode (fuel + 1) ('[' :: l) pos d = json_decode_arr fuel .nil 0 true l (pos + 1) := by
  simp only [json_decode]
  simp [skipWs, luaSpace]

theorem json_decode_open_obj (fuel : Nat) (l : List Char) (pos : Nat) (d : Option Char) :
    json_decode (fuel + 1) ('{' :: l) pos d = json_decode_obj fuel .nil true l (pos + 1) := by
  simp only [json_decode]
  simp [skipWs, luaSpace]

theorem valsRT_seq (W : Nat) (IH : ∀ e, jweight e ≤ W → goodVal e = true → RTspec e)
    (kvs : JPairs) (hg : ∃ i, goodSeqFrom i kvs = true) (hw : pweight kvs ≤ W) :
    valsRT kvs :=
  match kvs with
  | .nil => trivial
  | .cons k v r => by
    obtain ⟨i, hg⟩ := hg
    simp only [goodSeqFrom, Bool.and_eq_true, decide_eq_true_eq] at hg
    obtain ⟨⟨_, hv⟩, hr⟩ := hg
    simp only [pweight] at hw
    have h1 : jweight v ≤ W := by
      have := jweight_pos k
      omega
    exact ⟨IH v h1 hv, valsRT_seq W IH r ⟨i + 1, hr⟩ (by omega)⟩

theorem valsRT_map (W : Nat) (IH : ∀ e, jweight e ≤ W → goodVal e = true → RTspec e)
    (kvs : JPairs) (hm : goodMapP kvs = true) (hw : pweight kvs ≤ W) :
    valsRT kvs :=
  match kvs with
  | .nil => trivial
  | .cons k v r => by
    simp only [goodMapP, Bool.and_eq_true] at hm
    obtain ⟨⟨⟨_, hv⟩, _⟩, hr⟩ := hm
    simp only [pweight] at hw
    have h1 : jweight v ≤ W := by
      have := jweight_pos k
      omega
    exact ⟨IH v h1 hv, valsRT_map W IH r hr (by omega)⟩

/-- Every well-formed value has the round-trip property, by strong induction
on its structural weight. -/
theorem RTspec_of_good (W : Nat) :
    ∀ e, jweight e ≤ W → goodVal e = true → RTspec e := by
  induction W with
  | zero =>
    intro e hw _
    exact absurd hw (by have := jweight_pos e; omega)
  | succ W ihW =>
    intro e hw hg
    cases e with
    | null => simp [goodVal] at hg
    | bool b =>
      intro enc henc fuel rest pos d hfuel hstop hd
      rw [json_encode] at henc
      cases b with
      | true =>
        simp only [pure, Except.pure, if_true, Except.ok.injEq] at henc
        subst henc
        rcases fuel with _ | f
        · exact absurd hfuel (by simp only [List.length_cons, List.length_nil,
            List.length_append] at hfuel; omega)
        refine ⟨pos + 4, ?_⟩
        rw [show (['t', 'r', 'u', 'e'] : List Char) ++ rest =
          't' :: 'r' :: 'u' :: 'e' :: rest from rfl]
        exact json_decode_lit_true f rest pos d hd
      | false =>
        simp only [pure, Except.pure, Bool.false_eq_true, if_false, Except.ok.injEq] at henc
        subst henc
        rcases fuel with _ | f
        · exact absurd hfuel (by simp only [List.length_cons, List.length_nil,
            List.length_append] at hfuel; omega)
        refine ⟨pos + 5, ?_⟩
        rw [show (['f', 'a', 'l', 's', 'e'] : List Char) ++ rest =
          'f' :: 'a' :: 'l' :: 's' :: 'e' :: rest from rfl]
        exact json_decode_lit_false f rest pos d hd
    | num i =>
      intro enc henc fuel rest pos d hfuel hstop hd
      rw [json_encode] at henc
      simp only [Bool.false_eq_true, if_false, pure, Except.pure, Except.ok.injEq] at henc
      subst henc
      rcases fuel with _ | f
      · exact absurd hfuel (by omega)
      exact ⟨pos + (intRepr i).length, json_decode_num f i rest hstop pos d⟩
    | str s =>
      simp only [goodVal] at hg
      intro enc henc fuel rest pos d hfuel hstop hd
      rw [json_encode] at henc
      simp only [pure, Except.pure, Except.ok.injEq] at henc
      subst henc
      rcases fuel with _ | f
      · exact absurd hfuel (by omega)
      rw [show ('"' :: escape_str s ++ ['"']) ++ rest =
        '"' :: (escape_str s ++ '"' :: rest) from by simp]
      exact json_decode_str f s hg rest pos d
    | table kvs =>
      simp only [jweight] at hw
      have hpw : pweight kvs ≤ W := by omega
      simp only [goodVal, Bool.or_eq_true] at hg
      intro enc henc fuel rest pos d hfuel hstop hd
      by_cases hnil : kvs = .nil
      · subst hnil
        rw [json_encode] at henc
        rw [show kind_of (.table .nil) = .ktable from rfl] at henc
        rw [show encPairs .nil true = Except.ok [] from by rw [encPairs]; rfl] at henc
        simp only [Bool.false_eq_true, if_false, bind, Except.bind, pure, Except.pure,
          Except.ok.injEq] at henc
        subst henc
        rcases fuel with _ | f2
        · exact absurd hfuel (by simp only [List.length_cons, List.length_nil,
            List.length_append] at hfuel; omega)
        rw [show ('{' :: [] ++ ['}'] : List Char) ++ rest = '{' :: ('}' :: rest) from by simp]
        rw [json_decode_open_obj f2 ('}' :: rest) pos d]
        obtain ⟨p2, hp2⟩ := decode_obj_loop .nil rfl trivial true []
          (by rw [encPairs]; rfl) .nil trivial true (.inr rfl) f2 rest (pos + 1)
          (by
            simp only [if_true, List.nil_append, List.length_cons]
            simp only [List.length_cons, List.length_nil, List.length_append] at hfuel
            omega)
        simp only [if_true, List.nil_append] at hp2
        rw [hp2]
        exact ⟨p2, rfl⟩
      · rcases hg with hg | hg
        · have hkind := kind_of_goodSeq kvs hg hnil
          rw [json_encode] at henc
          rw [hkind] at henc
          simp only [Bool.false_eq_true, if_false] at henc
          rcases hb : encSeq kvs (plen kvs) 1 with e1 | body
          · rw [hb] at henc
            simp [bind, Except.bind] at henc
          rw [hb] at henc
          simp only [bind, Except.bind, pure, Except.pure, Except.ok.injEq] at henc
          subst henc
          rcases fuel with _ | f2
          · exact absurd hfuel (by omega)
          rw [show ('[' :: body ++ [']']) ++ rest = '[' :: (body ++ ']' :: rest) from by simp]
          rw [json_decode_open_arr f2 (body ++ ']' :: rest) pos d]
          have hRTkvs : valsRT kvs := valsRT_seq W ihW kvs ⟨1, hg⟩ hpw
          obtain ⟨p2, hp2⟩ := decode_arr_loop kvs kvs 1 (le_refl 1) hg hRTkvs
            (fun j _ => rfl) (plen kvs) body (le_refl _) hb .nil 0 rfl
            (fun z hz => rfl) true (.inr rfl) f2 rest (pos + 1)
            (by
              rw [if_neg (show ¬(1 : Nat) < 1 from by omega)]
              simp only [List.length_append, List.length_cons]
              simp only [List.length_cons, List.length_append, List.length_nil] at hfuel
              omega)
          rw [if_neg (show ¬(1 : Nat) < 1 from by omega)] at hp2
          rw [hp2]
          exact ⟨p2, rfl⟩
        · have hkind := kind_of_goodMap kvs hg
          rw [json_encode] at henc
          rw [hkind] at henc
          simp only [Bool.false_eq_true, if_false] at henc
          rcases hb : encPairs kvs true with e1 | body
          · rw [hb] at henc
            simp [bind, Except.bind] at henc
          rw [hb] at henc
          simp only [bind, Except.bind, pure, Except.pure, Except.ok.injEq] at henc
          subst henc
          rcases fuel with _ | f2
          · exact absurd hfuel (by omega)
          rw [show ('{' :: body ++ ['}']) ++ rest = '{' :: (body ++ '}' :: rest) from by simp]
          rw [json_decode_open_obj f2 (body ++ '}' :: rest) pos d]
          have hRTkvs : valsRT kvs := valsRT_map W ihW kvs hg hpw
          obtain ⟨p2, hp2⟩ := decode_obj_loop kvs hg hRTkvs true body hb .nil
            (keysDisjoint_nil kvs) true (.inr rfl) f2 rest (pos + 1)
            (by
              simp only [if_true]
              simp only [List.length_cons, List.length_append, List.length_nil] at hfuel ⊢
              omega)
          simp only [if_true] at hp2
          rw [hp2]
          exact ⟨p2, rfl⟩


/-- A representative well-formed envelope: a string-keyed mapping holding a
string, a negative number, a boolean and a nested sequence (itself holding a
string and an empty table). -/
def c4Envelope : JValue :=
  .table (.cons (.str ['c', 'm', 'd']) (.str ['p', 'i', 'n', 'g'])
    (.cons (.str ['i', 'd']) (.num (-42))
      (.cons (.str ['o', 'k']) (.bool true)
        (.cons (.str ['x', 's'])
          (.table (.cons (.num 1) (.str ['a']) (.cons (.num 2) (.table .nil) .nil)))
          .nil))))

/-- C4 (amended): `decode(encode(e)) = e` for every envelope with no `null`,
strings avoiding the control characters BS, FF, LF, CR, TAB, and tables that
are either index-ordered sequences or string-keyed mappings with distinct
keys: the encoder succeeds and the top-level decode of its output returns
exactly the envelope. -/
theorem c4_amended_roundtrip_wellformed (e : JValue) (h : goodVal e = true) :
    ∃ enc p, json_encode e false = .ok enc ∧ json_decode_top enc = .ok (some e, p) := by
  obtain ⟨enc, henc⟩ := json_encode_ok (jweight e) e (le_refl _) h
  have hrt := RTspec_of_good (jweight e) e (le_refl _) h
  obtain ⟨p2, hp⟩ := hrt enc henc (decodeFuel enc) [] 1 none
    (by simp only [decodeFuel, List.length_nil]; omega) rfl (.inl rfl)
  refine ⟨enc, p2, henc, ?_⟩
  rw [json_decode_top]
  rw [show enc ++ ([] : List Char) = enc from by simp] at hp
  rw [hp]

/-- Witness for C4 (amended): the representative envelope is well formed, and
the round-trip theorem applies to it. -/
theorem c4_amended_witness :
    goodVal c4Envelope = true ∧
      ∃ enc p, json_encode c4Envelope false = .ok enc ∧
        json_decode_top enc = .ok (some c4Envelope, p) :=
  ⟨by decide, c4_amended_roundtrip_wellformed c4Envelope (by decide)⟩

end DtMcp
